import Mathlib

/-!
Verification of the gitops-validator resource graph, reachability analysis,
path resolution and validation pipeline.

The Go sources are shallowly embedded: Go strings are Lean String values,
Go maps become association lists (with an explicit iteration-order parameter
wherever the Go code ranges over a map, since Go map range order is
unspecified), Go slices become lists, and fallible functions return Option
or Except.  The recursive depth-first traversal of context.go receives an
explicit fuel argument; a stabilisation theorem shows the recursion reaches
its fixed point within the fuel supplied by the wrapper.
-/

namespace GitopsValidator

/-! ## Character-list string helpers (Go strings package)

These model the handful of functions from Go's standard strings package
used by the sources.  They work on char lists so that every definition is
structurally recursive and kernel-reducible. -/

/-- Models Go strings.HasPrefix on char lists: chStarts p s is true when s
starts with p. -/
def chStarts : List Char → List Char → Bool
  | [], _ => true
  | _ :: _, [] => false
  | p :: ps, c :: cs => p == c && chStarts ps cs

/-- Models Go strings.HasPrefix. -/
def goHasPre (pre s : String) : Bool :=
  chStarts pre.data s.data

/-- Models Go strings.HasSuffix. -/
def goHasSuf (s suf : String) : Bool :=
  chStarts suf.data.reverse s.data.reverse

/-- Drop a leading run: helper for TrimPrefix. -/
def chDropPre : List Char → List Char → List Char
  | [], s => s
  | _ :: _, [] => []
  | _ :: ps, _ :: cs => chDropPre ps cs

/-- Models Go strings.TrimPrefix: removes pre from the front of s when
present, otherwise returns s unchanged. -/
def goTrimPre (pre s : String) : String :=
  if chStarts pre.data s.data then String.mk (chDropPre pre.data s.data) else s

/-- Whitespace test used by Go strings.TrimSpace (the ASCII cases that can
occur in the inputs considered here). -/
def isSpaceChar (c : Char) : Bool :=
  c == ' ' || c == '\t' || c == '\n' || c == '\r'

/-- Models Go strings.TrimSpace. -/
def goTrimSpace (s : String) : String :=
  String.mk (((s.data.dropWhile isSpaceChar).reverse.dropWhile isSpaceChar).reverse)

/-! ## Path model (Go path/filepath on unix separators)

filepath.Join concatenates its non-empty components with a separator and
runs filepath.Clean; Clean resolves "." and ".." segments and collapses
repeated separators.  Modelled segment-wise, which agrees with the
character-level Go algorithm on unix paths. -/

/-- Split a char list on the path separator; empty segments are retained
(Clean discards them). -/
def splitSlash : List Char → List (List Char)
  | [] => [[]]
  | c :: rest =>
    if c = '/' then [] :: splitSlash rest
    else
      match splitSlash rest with
      | [] => [[c]]
      | seg :: segs => (c :: seg) :: segs

/-- One step of filepath.Clean segment processing: drop empty and "."
segments, resolve ".." against the output so far (at the root ".." is
dropped; in a relative path leading ".." segments are retained). -/
def cleanStep (rooted : Bool) (acc : List (List Char)) (seg : List Char) : List (List Char) :=
  if seg = ([] : List Char) ∨ seg = ['.'] then acc
  else if seg = ['.', '.'] then
    if rooted then acc.dropLast
    else if acc ≠ [] ∧ acc.getLast? ≠ some ['.', '.'] then acc.dropLast
    else acc ++ [seg]
  else acc ++ [seg]

/-- Join segments back with separators. -/
def joinSlash : List (List Char) → List Char
  | [] => []
  | [s] => s
  | s :: rest => s ++ '/' :: joinSlash rest

/-- Models Go filepath.Clean (unix). -/
def goClean (path : String) : String :=
  if path = "" then "."
  else
    let cs := path.data
    let rooted := cs.head? = some '/'
    let out := (splitSlash cs).foldl (cleanStep rooted) []
    if rooted then String.mk ('/' :: joinSlash out)
    else if out = [] then "." else String.mk (joinSlash out)

/-- Models Go filepath.Join for two components. -/
def goJoin (a b : String) : String :=
  if a = "" ∧ b = "" then ""
  else if a = "" then goClean b
  else if b = "" then goClean a
  else goClean (a ++ "/" ++ b)

/-- All chars of a path up to and including the final separator (empty when
the path has no separator): helper for filepath.Dir. -/
def upToLastSlash (cs : List Char) : List Char :=
  ((cs.reverse.dropWhile (fun c => ¬ (c = '/')))).reverse

/-- Models Go filepath.Dir (unix). -/
def goDir (p : String) : String :=
  goClean (String.mk (upToLastSlash p.data))

/-- Models Go filepath.Base (unix). -/
def goBase (p : String) : String :=
  if p = "" then "."
  else
    let cs := (p.data.reverse.dropWhile (fun c => c = '/')).reverse
    if cs = [] then "/"
    else String.mk ((cs.reverse.takeWhile (fun c => ¬ (c = '/'))).reverse)

/-! ## Data model (internal/parser, graph.go second half)

Go's dynamically typed content trees (map[string]interface{} values built
from YAML) are modelled by GoValue; Go maps become association lists. -/

/-- A decoded Go interface{} value as produced by nodeToInterface: a string
scalar, a slice, a string-keyed map, or nil. -/
inductive GoValue where
  | str (s : String)
  | list (xs : List GoValue)
  | map (m : List (String × GoValue))
  | nil

/-- Go map lookup on an association list (keys are unique in every map the
sources build). -/
def goMapGet (m : List (String × GoValue)) (k : String) : Option GoValue :=
  match m with
  | [] => none
  | (k', v) :: rest => if k' = k then some v else goMapGet rest k

/-- Go map insertion with overwrite on key collision. -/
def goMapPut (m : List (String × GoValue)) (k : String) (v : GoValue) : List (String × GoValue) :=
  match m with
  | [] => [(k, v)]
  | (k', v') :: rest => if k' = k then (k, v) :: rest else (k', v') :: goMapPut rest k v

/-- Go type assertion .(map[string]interface{}) on a looked-up entry. -/
def mapGetMap (m : List (String × GoValue)) (k : String) : Option (List (String × GoValue)) :=
  match goMapGet m k with
  | some (GoValue.map mm) => some mm
  | _ => none

/-- Go type assertion .(string) on a looked-up entry. -/
def mapGetStr (m : List (String × GoValue)) (k : String) : Option String :=
  match goMapGet m k with
  | some (GoValue.str s) => some s
  | _ => none

/-- Go type assertion .([]interface{}) on a looked-up entry. -/
def mapGetList (m : List (String × GoValue)) (k : String) : Option (List GoValue) :=
  match goMapGet m k with
  | some (GoValue.list xs) => some xs
  | _ => none

/-- parser.ResourceReference.  The Go field Type is rendered Typ because
Type is reserved in Lean; all other field names follow the source. -/
structure ResourceReference where
  Typ : String
  Name : String
  File : String
  Line : Nat
  ReferenceType : String
  Path : String
  IsRelative : Bool
deriving DecidableEq, Repr

/-- parser.ParsedResource. -/
structure ParsedResource where
  File : String
  Line : Nat
  APIVersion : String
  Kind : String
  Name : String
  Namespace : String
  Content : List (String × GoValue)
  Dependencies : List ResourceReference
  ReferencedBy : List ResourceReference

/-- parser reference-type constants (index.go). -/
def ReferenceTypePath : String := "path"

def ReferenceTypeSourceRef : String := "sourceRef"

def ReferenceTypeChart : String := "chart"

def ReferenceTypeImage : String := "image"

def ReferenceTypeResource : String := "resource"

/-- parser resource-type constants (index.go). -/
def ResourceTypeFluxKustomization : String := "flux-kustomization"

def ResourceTypeKubernetesKustomization : String := "kubernetes-kustomization"

def ResourceTypeHelmRelease : String := "helm-release"

def ResourceTypeFluxSource : String := "flux-source"

def ResourceTypeFluxImage : String := "flux-image"

def ResourceTypeFluxNotification : String := "flux-notification"

def ResourceTypeKubernetesResource : String := "kubernetes-resource"

/-- ParsedResource.GetResourceKey: "namespace/name" when the namespace is
non-empty, else the bare name. -/
def GetResourceKey (r : ParsedResource) : String :=
  if r.Namespace ≠ "" then r.Namespace ++ "/" ++ r.Name else r.Name

/-- ClassifyResource (index.go). -/
def ClassifyResource (r : ParsedResource) : String :=
  if r.Kind = "Kustomization" ∧ goHasPre "kustomize.toolkit.fluxcd.io/" r.APIVersion then
    ResourceTypeFluxKustomization
  else if r.Kind = "HelmRelease" ∧ goHasPre "helm.toolkit.fluxcd.io/" r.APIVersion then
    ResourceTypeHelmRelease
  else if r.Kind = "GitRepository" ∧ goHasPre "source.toolkit.fluxcd.io/" r.APIVersion then
    ResourceTypeFluxSource
  else if r.Kind = "HelmRepository" ∧ goHasPre "source.toolkit.fluxcd.io/" r.APIVersion then
    ResourceTypeFluxSource
  else if r.Kind = "ImageRepository" ∧ goHasPre "image.toolkit.fluxcd.io/" r.APIVersion then
    ResourceTypeFluxImage
  else if r.Kind = "ImagePolicy" ∧ goHasPre "image.toolkit.fluxcd.io/" r.APIVersion then
    ResourceTypeFluxImage
  else if r.Kind = "ImageUpdateAutomation" ∧ goHasPre "image.toolkit.fluxcd.io/" r.APIVersion then
    ResourceTypeFluxImage
  else if r.Kind = "Alert" ∧ goHasPre "notification.toolkit.fluxcd.io/" r.APIVersion then
    ResourceTypeFluxNotification
  else if r.Kind = "Provider" ∧ goHasPre "notification.toolkit.fluxcd.io/" r.APIVersion then
    ResourceTypeFluxNotification
  else if r.Kind = "Receiver" ∧ goHasPre "notification.toolkit.fluxcd.io/" r.APIVersion then
    ResourceTypeFluxNotification
  else ResourceTypeKubernetesResource

/-- IsKustomizationFile (index.go). -/
def IsKustomizationFile (filePath : String) : Bool :=
  goBase filePath = "kustomization.yaml" || goBase filePath = "kustomization.yml"

/-! ## Reference extraction (index.go) -/

/-- extractFluxKustomizationReferences: spec.path (a path reference that is
relative to the repository root, IsRelative=false) and spec.sourceRef.name
(a sourceRef reference). -/
def extractFluxKustomizationReferences (resource : ParsedResource) (_repoPath : String) :
    List ResourceReference :=
  match mapGetMap resource.Content "spec" with
  | none => []
  | some spec =>
    (match mapGetStr spec "path" with
     | some path =>
       [⟨"flux-kustomization-path", resource.Name, resource.File, resource.Line,
         ReferenceTypePath, path, false⟩]
     | none => []) ++
    (match mapGetMap spec "sourceRef" with
     | some sourceRef =>
       match mapGetStr sourceRef "name" with
       | some name =>
         [⟨"flux-source", name, resource.File, resource.Line,
           ReferenceTypeSourceRef, name, false⟩]
       | none => []
     | none => [])

/-- extractKubernetesKustomizationReferences: resources[] entries (reference
type "resource"), patches[].path and patchesStrategicMerge[] entries
(reference type "path"), all with IsRelative=true. -/
def extractKubernetesKustomizationReferences (resource : ParsedResource) (_repoPath : String) :
    List ResourceReference :=
  (match mapGetList resource.Content "resources" with
   | some resources =>
     resources.filterMap fun res =>
       match res with
       | GoValue.str resPath =>
         some ⟨"kustomization-resource", resource.Name, resource.File, resource.Line,
               ReferenceTypeResource, resPath, true⟩
       | _ => none
   | none => []) ++
  (match mapGetList resource.Content "patches" with
   | some patches =>
     patches.filterMap fun patch =>
       match patch with
       | GoValue.map patchMap =>
         match mapGetStr patchMap "path" with
         | some path =>
           some ⟨"kustomization-patch", resource.Name, resource.File, resource.Line,
                 ReferenceTypePath, path, true⟩
         | none => none
       | _ => none
   | none => []) ++
  (match mapGetList resource.Content "patchesStrategicMerge" with
   | some patches =>
     patches.filterMap fun patch =>
       match patch with
       | GoValue.str patchPath =>
         some ⟨"kustomization-patch-strategic", resource.Name, resource.File, resource.Line,
               ReferenceTypePath, patchPath, true⟩
       | _ => none
   | none => [])

/-- extractHelmReleaseReferences: spec.chart.spec.chart (chart reference)
and spec.chart.spec.sourceRef.name (sourceRef reference). -/
def extractHelmReleaseReferences (resource : ParsedResource) (_repoPath : String) :
    List ResourceReference :=
  match mapGetMap resource.Content "spec" with
  | none => []
  | some spec =>
    match mapGetMap spec "chart" with
    | none => []
    | some chart =>
      match mapGetMap chart "spec" with
      | none => []
      | some chartSpec =>
        (match mapGetStr chartSpec "chart" with
         | some chartName =>
           [⟨"helm-chart", resource.Name, resource.File, resource.Line,
             ReferenceTypeChart, chartName, false⟩]
         | none => []) ++
        (match mapGetMap chartSpec "sourceRef" with
         | some sourceRef =>
           match mapGetStr sourceRef "name" with
           | some name =>
             [⟨"helm-source", name, resource.File, resource.Line,
               ReferenceTypeSourceRef, name, false⟩]
           | none => []
         | none => [])

/-- ExtractReferences (index.go): dispatch on the classified resource type. -/
def ExtractReferences (resource : ParsedResource) (repoPath : String) : List ResourceReference :=
  if ClassifyResource resource = ResourceTypeFluxKustomization then
    extractFluxKustomizationReferences resource repoPath
  else if ClassifyResource resource = ResourceTypeKubernetesKustomization then
    extractKubernetesKustomizationReferences resource repoPath
  else if ClassifyResource resource = ResourceTypeHelmRelease then
    extractHelmReleaseReferences resource repoPath
  else []

/-! ## Resource graph (graph.go)

A ResourceGraph owns the resources added to it via AddResource, in
insertion order.  The Resources map (keyed by GetResourceKey, last write
wins) and the Files index (all resources of a file, in insertion order)
are derived from that list, exactly as the sequence of AddResource calls
builds them in Go.  Wherever Go ranges over one of these maps, the
embedding takes an explicit iteration-order parameter, because Go map
range order is unspecified. -/

structure ResourceGraph where
  allResources : List ParsedResource

/-- Association-list insertion with overwrite: one AddResource update of
the Resources map. -/
def mapInsert (m : List (String × ParsedResource)) (k : String) (v : ParsedResource) :
    List (String × ParsedResource) :=
  match m with
  | [] => [(k, v)]
  | (k', v') :: rest => if k' = k then (k, v) :: rest else (k', v') :: mapInsert rest k v

/-- Association-list lookup: one Resources map read. -/
def mapLookup (m : List (String × ParsedResource)) (k : String) : Option ParsedResource :=
  match m with
  | [] => none
  | (k', v) :: rest => if k' = k then some v else mapLookup rest k

/-- The Resources map of the graph: every AddResource call stores the
resource under its GetResourceKey, overwriting on collision. -/
def resourcesMap (g : ResourceGraph) : List (String × ParsedResource) :=
  g.allResources.foldl (fun m r => mapInsert m (GetResourceKey r) r) []

/-- The Files index of the graph: AddResource appends each resource to the
slice of its source file, so the slice for a file is the insertion-ordered
sublist of resources with that File. -/
def filesMap (g : ResourceGraph) (f : String) : List ParsedResource :=
  g.allResources.filter (fun r => r.File = f)

/-- The distinct file paths present in the Files index (for len(g.Files)). -/
def filesKeys (g : ResourceGraph) : List String :=
  (g.allResources.map (fun r => r.File)).dedup

/-- The base-path selection step of findResourceByPath (graph.go): a
relative reference is joined to the directory of the referencing file, a
non-relative one to the repository root. -/
def resolveReferenceFullPath (path : String) (isRelative : Bool) (sourceFile repoPath : String) :
    String :=
  if isRelative then goJoin (goDir sourceFile) path
  else goJoin repoPath path

/-- findResourceByPath (graph.go): resolve the full path, then return the
first resource parsed from that file, if any. -/
def findResourceByPath (g : ResourceGraph) (path : String) (isRelative : Bool)
    (sourceFile repoPath : String) : Option ParsedResource :=
  let fullPath := resolveReferenceFullPath path isRelative sourceFile repoPath
  let resources := filesMap g fullPath
  if IsKustomizationFile fullPath ∧ resources.length > 0 then resources.head?
  else if resources.length > 0 then resources.head?
  else none

/-- findResourceByName (graph.go): exact key lookup in the Resources map,
then a range over the map looking for a key with suffix "/"++name.  The
range order ord is a parameter (Go map range order is unspecified). -/
def findResourceByName (g : ResourceGraph) (ord : List (String × ParsedResource))
    (name : String) : Option ParsedResource :=
  match mapLookup (resourcesMap g) name with
  | some resource => some resource
  | none =>
    match ord.find? (fun kv => goHasSuf kv.1 ("/" ++ name)) with
    | some kv => some kv.2
    | none => none

/-- FindTargetResource (graph.go): dispatch on the reference type; "path"
resolves by file path, "sourceRef" by name, "chart" and everything else
(including "resource") resolve to no target. -/
def FindTargetResource (g : ResourceGraph) (ord : List (String × ParsedResource))
    (ref : ResourceReference) (sourceResource : ParsedResource) (repoPath : String) :
    Option ParsedResource :=
  if ref.ReferenceType = ReferenceTypePath then
    findResourceByPath g ref.Path ref.IsRelative sourceResource.File repoPath
  else if ref.ReferenceType = ReferenceTypeSourceRef then
    findResourceByName g ord ref.Path
  else if ref.ReferenceType = ReferenceTypeChart then
    none
  else none

/-! ## Dependency-graph construction (BuildDependencyGraph, graph.go)

The first action of the resolution loop stores the extracted references on
each resource's Dependencies field; the second resolves every reference
and appends a reverse reference to the target's ReferencedBy list.  The
loop ranges over the Resources map, so the iteration order is a
parameter. -/

/-- The Dependencies assignment of BuildDependencyGraph, applied to every
resource of the graph (it does not depend on the map iteration order). -/
def setDependencies (g : ResourceGraph) (repoPath : String) : ResourceGraph :=
  ⟨g.allResources.map (fun r => { r with Dependencies := ExtractReferences r repoPath })⟩

/-- The reverse reference BuildDependencyGraph appends to a target's
ReferencedBy list for a resolved reference of resource. -/
def mkReverseReference (resource : ParsedResource) (ref : ResourceReference) :
    ResourceReference :=
  ⟨ref.Typ, resource.Name, resource.File, resource.Line, ref.ReferenceType, ref.Path,
   ref.IsRelative⟩

/-- The resolved reverse edges produced by BuildDependencyGraph: for every
resource (in map iteration order iter), for every extracted reference that
FindTargetResource resolves, the pair of the target resource and the
reverse reference appended to its ReferencedBy list.  ordName is the map
range order seen by findResourceByName. -/
def buildReverseEdges (g : ResourceGraph) (iter : List ParsedResource)
    (ordName : List (String × ParsedResource)) (repoPath : String) :
    List (ParsedResource × ResourceReference) :=
  iter.flatMap (fun r =>
    (ExtractReferences r repoPath).filterMap (fun ref =>
      match FindTargetResource g ordName ref r repoPath with
      | some target => some (target, mkReverseReference r ref)
      | none => none))

/-! ## Reachability / orphan analysis (internal/context/context.go) -/

/-- The body of the dependency loop of traverseFromResource: a dependency
is followed only when its reference type is "path" or "resource"; if
FindTargetResource yields a target, the traversal (the step argument)
recurses into it. -/
def traverseDepStep (step : ParsedResource → List String → List String)
    (g : ResourceGraph) (ord : List (String × ParsedResource)) (repoPath : String)
    (resource : ParsedResource) (dep : ResourceReference) (visited : List String) :
    List String :=
  if dep.ReferenceType = ReferenceTypePath ∨ dep.ReferenceType = ReferenceTypeResource then
    match FindTargetResource g ord dep resource repoPath with
    | some targetResource => step targetResource visited
    | none => visited
  else visited

/-- The dependency loop of traverseFromResource, threading the visited set
through the iterations. -/
def traverseDeps (step : ParsedResource → List String → List String)
    (g : ResourceGraph) (ord : List (String × ParsedResource)) (repoPath : String)
    (resource : ParsedResource) : List ResourceReference → List String → List String
  | [], visited => visited
  | dep :: deps, visited =>
    traverseDeps step g ord repoPath resource deps
      (traverseDepStep step g ord repoPath resource dep visited)

/-- traverseFromResource (context.go) with explicit fuel: return at once
when the resource's key is already visited, otherwise mark it and traverse
the dependencies.  The Go recursion carries no fuel; the wrapper below
supplies enough fuel for the recursion to reach its fixed point, which the
stabilisation theorem justifies. -/
def traverseFuel (g : ResourceGraph) (ord : List (String × ParsedResource))
    (repoPath : String) : Nat → ParsedResource → List String → List String
  | 0, _, visited => visited
  | fuel + 1, resource, visited =>
    if visited.contains (GetResourceKey resource) then visited
    else
      traverseDeps (traverseFuel g ord repoPath fuel) g ord repoPath resource
        resource.Dependencies (GetResourceKey resource :: visited)

/-- traverseFromResource (context.go). -/
def traverseFromResource (g : ResourceGraph) (ord : List (String × ParsedResource))
    (repoPath : String) (resource : ParsedResource) (visited : List String) : List String :=
  traverseFuel g ord repoPath (g.allResources.length + 1) resource visited

/-- The visited set after FindOrphanedResources has traversed from every
entry point. -/
def orphanTraversalVisited (g : ResourceGraph) (ord : List (String × ParsedResource))
    (repoPath : String) (entryPoints : List ParsedResource) : List String :=
  entryPoints.foldl (fun visited e => traverseFromResource g ord repoPath e visited) []

/-- FindOrphanedResources (context.go): every resource of the graph whose
key was not visited.  ord2 is the range order of the final loop over the
Resources map. -/
def FindOrphanedResources (g : ResourceGraph) (ord ord2 : List (String × ParsedResource))
    (repoPath : String) (entryPoints : List ParsedResource) : List ParsedResource :=
  let visited := orphanTraversalVisited g ord repoPath entryPoints
  (ord2.map (fun kv => kv.2)).filter (fun r => !visited.contains (GetResourceKey r))

/-- The resources the traversal visited (the complement of the orphan set
within the same range over the Resources map): the reachable set of the
reachability analysis. -/
def visitedResources (g : ResourceGraph) (ord ord2 : List (String × ParsedResource))
    (repoPath : String) (entryPoints : List ParsedResource) : List ParsedResource :=
  let visited := orphanTraversalVisited g ord repoPath entryPoints
  (ord2.map (fun kv => kv.2)).filter (fun r => visited.contains (GetResourceKey r))

/-! ## Path normalisation utilities (validators package) -/

/-- NormalizePath: remote URLs are skipped; a path starting with the
separator is returned unchanged; otherwise one leading "./" is stripped. -/
def NormalizePath (path : String) : String × Bool :=
  if goHasPre "http://" path || goHasPre "https://" path then ("", false)
  else if goHasPre "/" path then (path, true)
  else (goTrimPre "./" path, true)

/-- ResolvePath (validators package): normalise, then join with the base
directory. -/
def ResolvePath (baseDir path : String) : String × Bool :=
  let n := NormalizePath path
  if n.2 = false then ("", false)
  else (goJoin baseDir n.1, true)

/-! ## Validation pipeline (internal/validators/pipeline.go) -/

/-- types.ValidationResult.  The Go field Type is rendered Typ. -/
structure ValidationResult where
  Typ : String
  Severity : String
  Message : String
  File : String
  Line : Nat
  Resource : String
deriving DecidableEq, Repr

/-- A ValidationResult with only Type, Severity and Message set, as the
pipeline's synthetic findings are built (the other fields keep their Go
zero values). -/
def mkSyntheticResult (typ severity message : String) : ValidationResult :=
  ⟨typ, severity, message, "", 0, ""⟩

/-- context.ValidationContext (the fields the pipeline reads). -/
structure ValidationContext where
  Graph : ResourceGraph
  RepoPath : String

/-- GraphValidator: a named check whose Validate either returns findings or
fails with a Go error (modelled as Except). -/
structure GraphValidator where
  NameOf : String
  Validate : ValidationContext → Except String (List ValidationResult)

/-- PipelineStage. -/
structure PipelineStage where
  Name : String
  Description : String
  Validators : List String
  Parallel : Bool
  Required : Bool
  Condition : String

/-- ValidationPipeline. -/
structure ValidationPipeline where
  Name : String
  Description : String
  Stages : List PipelineStage
  Parallel : Bool

/-- PipelineExecutor: the registry of validators by name (the verbose flag
only controls logging and is omitted). -/
structure PipelineExecutor where
  validators : List (String × GraphValidator)

/-- Registry lookup. -/
def lookupValidator (pe : PipelineExecutor) (name : String) : Option GraphValidator :=
  match pe.validators.find? (fun kv => kv.1 = name) with
  | some kv => some kv.2
  | none => none

/-- Two's-complement wrap into the 64-bit signed range, modelling overflow
of Go's int arithmetic (64-bit platforms). -/
def intWrap64 (n : Int) : Int :=
  if n % (2 ^ 64) ≥ 2 ^ 63 then n % (2 ^ 64) - 2 ^ 64 else n % (2 ^ 64)

/-- parseInt (pipeline.go): accumulate decimal digits into a Go int,
ignoring every other character; a string without digits yields 0.  Go's
int arithmetic wraps (two's complement, 64 bits), so each accumulation
step is wrapped. -/
def goParseInt (s : String) : Int :=
  s.data.foldl
    (fun result char =>
      if '0' ≤ char ∧ char ≤ '9' then
        intWrap64 (result * 10 + ((char.toNat : Int) - ('0'.toNat : Int)))
      else result)
    0

/-- evaluateCondition (pipeline.go): the three recognised forms compare the
resource count or the file count of the graph against the parsed
threshold; every other condition string evaluates to true. -/
def evaluateCondition (condition : String) (ctx : ValidationContext) : Bool :=
  if goHasPre "resource_count >" condition then
    let threshold := goTrimSpace (goTrimPre "resource_count >" condition)
    decide (((resourcesMap ctx.Graph).length : Int) > goParseInt threshold)
  else if goHasPre "resource_count <" condition then
    let threshold := goTrimSpace (goTrimPre "resource_count <" condition)
    decide (((resourcesMap ctx.Graph).length : Int) < goParseInt threshold)
  else if goHasPre "file_count >" condition then
    let threshold := goTrimSpace (goTrimPre "file_count >" condition)
    decide (((filesKeys ctx.Graph).length : Int) > goParseInt threshold)
  else true

/-- The validator-collection loop of executeStage: resolve every stage
validator name in the registry, failing on the first name that is not
registered. -/
def collectStageValidators (pe : PipelineExecutor) : List String →
    Except String (List GraphValidator)
  | [] => Except.ok []
  | validatorName :: rest =>
    match lookupValidator pe validatorName with
    | some validator =>
      match collectStageValidators pe rest with
      | Except.ok vs => Except.ok (validator :: vs)
      | Except.error e => Except.error e
    | none => Except.error ("validator '" ++ validatorName ++ "' not found")

/-- executeValidatorsSequential (pipeline.go), with the accumulating
results slice made explicit: a validator's runtime error becomes one
synthetic "validator-error" finding and the loop continues. -/
def executeValidatorsSequentialAux (ctx : ValidationContext) (results : List ValidationResult) :
    List GraphValidator → List ValidationResult
  | [] => results
  | validator :: rest =>
    match validator.Validate ctx with
    | Except.error e =>
      executeValidatorsSequentialAux ctx
        (results ++ [mkSyntheticResult "validator-error" "error"
          ("Validator " ++ validator.NameOf ++ " failed: " ++ e)]) rest
    | Except.ok validatorResults =>
      executeValidatorsSequentialAux ctx (results ++ validatorResults) rest

/-- executeValidatorsSequential (pipeline.go). -/
def executeValidatorsSequential (validators : List GraphValidator) (ctx : ValidationContext) :
    List ValidationResult :=
  executeValidatorsSequentialAux ctx [] validators

/-- executeValidatorsParallel (pipeline.go) currently delegates to the
sequential executor (per the source comment). -/
def executeValidatorsParallel (validators : List GraphValidator) (ctx : ValidationContext) :
    List ValidationResult :=
  executeValidatorsSequential validators ctx

/-- executeStage (pipeline.go): skip the stage when its condition is
present and evaluates to false; fail when a named validator is missing or
the stage has no validators; otherwise run the stage's validators. -/
def executeStage (pe : PipelineExecutor) (stage : PipelineStage) (ctx : ValidationContext) :
    Except String (List ValidationResult) :=
  if stage.Condition ≠ "" ∧ evaluateCondition stage.Condition ctx = false then
    Except.ok []
  else
    match collectStageValidators pe stage.Validators with
    | Except.error e => Except.error e
    | Except.ok stageValidators =>
      if stageValidators.length = 0 then
        Except.error ("no validators found for stage '" ++ stage.Name ++ "'")
      else if stage.Parallel then
        Except.ok (executeValidatorsParallel stageValidators ctx)
      else
        Except.ok (executeValidatorsSequential stageValidators ctx)

/-- The stage loop of ExecutePipeline (pipeline.go): a failing required
stage aborts with the error and the results so far; a failing non-required
stage contributes one synthetic "pipeline-stage-error" finding and the
loop continues; a successful stage appends its results. -/
def ExecutePipelineStages (pe : PipelineExecutor) (ctx : ValidationContext) :
    List PipelineStage → List ValidationResult → List ValidationResult × Option String
  | [], allResults => (allResults, none)
  | stage :: rest, allResults =>
    match executeStage pe stage ctx with
    | Except.error e =>
      if stage.Required then
        (allResults, some ("required stage '" ++ stage.Name ++ "' failed: " ++ e))
      else
        ExecutePipelineStages pe ctx rest
          (allResults ++ [mkSyntheticResult "pipeline-stage-error" "error"
            ("Stage '" ++ stage.Name ++ "' failed: " ++ e)])
    | Except.ok stageResults =>
      ExecutePipelineStages pe ctx rest (allResults ++ stageResults)

/-- ExecutePipeline (pipeline.go). -/
def ExecutePipeline (pe : PipelineExecutor) (pipeline : ValidationPipeline)
    (ctx : ValidationContext) : List ValidationResult × Option String :=
  ExecutePipelineStages pe ctx pipeline.Stages []

/-! ## YAML document parsing (ResourceParser.parseResourceNode)

yaml.Node is modelled with its Kind, Value, Line and Content fields; the
content of a mapping node alternates key and value nodes exactly as in the
Go yaml library. -/

/-- yaml.Node kinds that the parser distinguishes. -/
inductive YKind where
  | document
  | mapping
  | sequence
  | scalar
  | other
deriving DecidableEq, Repr

/-- yaml.Node: kind, scalar value (empty for non-scalars, as in Go), line,
and child content (alternating key/value nodes for mappings). -/
inductive YNode where
  | mk (kind : YKind) (value : String) (line : Nat) (content : List YNode)

/-- Field accessors mirroring the Go struct fields. -/
def YNode.kind : YNode → YKind
  | .mk k _ _ _ => k

def YNode.value : YNode → String
  | .mk _ v _ _ => v

def YNode.line : YNode → Nat
  | .mk _ _ l _ => l

def YNode.content : YNode → List YNode
  | .mk _ _ _ c => c

/-- The i, i+1 pairing of the Go loops over a mapping node's content (a
trailing unpaired node, which the yaml library never produces, is
ignored). -/
def chunkPairs : List YNode → List (YNode × YNode)
  | k :: v :: rest => (k, v) :: chunkPairs rest
  | _ => []

mutual
/-- nodeToInterface: scalars become strings, sequences slices, mappings
string-keyed maps, anything else nil. -/
def nodeToInterface : YNode → GoValue
  | .mk YKind.scalar v _ _ => GoValue.str v
  | .mk YKind.sequence _ _ content => GoValue.list (nodesToList content)
  | .mk YKind.mapping _ _ content => GoValue.map (pairsToMap content [])
  | .mk YKind.document _ _ _ => GoValue.nil
  | .mk YKind.other _ _ _ => GoValue.nil

def nodesToList : List YNode → List GoValue
  | [] => []
  | n :: ns => nodeToInterface n :: nodesToList ns

/-- The i, i+1 stepping of the Go loop over a mapping's content (keys at
even indices, values at odd ones), inserting left to right so that a
duplicate key keeps the last value, as the Go map writes do. -/
def pairsToMap : List YNode → List (String × GoValue) → List (String × GoValue)
  | k :: v :: rest, m => pairsToMap rest (goMapPut m k.value (nodeToInterface v))
  | _, m => m
end

/-- The metadata scan of parseResourceNode: walk the metadata mapping's
pairs, remembering the last name and namespace values seen. -/
def scanMetadata (pairs : List (YNode × YNode)) (name nspace : String) : String × String :=
  match pairs with
  | [] => (name, nspace)
  | (k, v) :: rest =>
    if k.value = "name" then scanMetadata rest v.value nspace
    else if k.value = "namespace" then scanMetadata rest name v.value
    else scanMetadata rest name nspace

/-- The field-extraction scan of parseResourceNode over the top-level
pairs: apiVersion (with its line), kind, and the metadata name/namespace. -/
def scanFields (pairs : List (YNode × YNode))
    (apiVersion kind name nspace : String) (line : Nat) :
    String × String × String × String × Nat :=
  match pairs with
  | [] => (apiVersion, kind, name, nspace, line)
  | (k, v) :: rest =>
    if k.value = "apiVersion" then scanFields rest v.value kind name nspace v.line
    else if k.value = "kind" then scanFields rest apiVersion v.value name nspace line
    else if k.value = "metadata" then
      if v.kind = YKind.mapping then
        let meta := scanMetadata (chunkPairs v.content) name nspace
        scanFields rest apiVersion kind meta.1 meta.2 line
      else scanFields rest apiVersion kind name nspace line
    else scanFields rest apiVersion kind name nspace line

/-- The content-map construction of parseResourceNode: every top-level
key/value pair is stored in the content map, in pair order, so a
duplicate key keeps the last value as in Go. -/
def buildContent : List (YNode × YNode) → List (String × GoValue) → List (String × GoValue)
  | [], m => m
  | (k, v) :: rest, m => buildContent rest (goMapPut m k.value (nodeToInterface v))

/-- parseResourceNode (ResourceParser): nil for non-mapping nodes; extract
apiVersion, kind and metadata.name/namespace and build the content map;
documents missing apiVersion, kind or metadata.name are skipped (nil) with
no warning and no finding. -/
def parseResourceNode (node : YNode) (filePath : String) : Option ParsedResource :=
  if node.kind ≠ YKind.mapping then none
  else
    let pairs := chunkPairs node.content
    let fields := scanFields pairs "" "" "" "" 0
    let apiVersion := fields.1
    let kind := fields.2.1
    let name := fields.2.2.1
    let nspace := fields.2.2.2.1
    let line := fields.2.2.2.2
    if apiVersion = "" ∨ kind = "" ∨ name = "" then none
    else
      some ⟨filePath, line, apiVersion, kind, name, nspace, buildContent pairs [], [], []⟩

/-- The document loop of ParseFile: each document node with non-empty
content is parsed from its first child; nil parse results are dropped
silently. -/
def ParseFileDocs (filePath : String) (docs : List YNode) : List ParsedResource :=
  docs.flatMap (fun doc =>
    if doc.kind = YKind.document ∧ doc.content.length > 0 then
      match doc.content.head? with
      | some root =>
        match parseResourceNode root filePath with
        | some resource => [resource]
        | none => []
      | none => []
    else [])

/-! ## Concrete fixtures used by counterexamples and witnesses -/

/-- A Flux Kustomization at /repo/a.yaml whose spec.path references
b.yaml. -/
def resA : ParsedResource :=
  ⟨"/repo/a.yaml", 1, "kustomize.toolkit.fluxcd.io/v1", "Kustomization", "a", "",
   [("spec", GoValue.map [("path", GoValue.str "./b.yaml")])], [], []⟩

/-- A Flux Kustomization at /repo/b.yaml whose spec.path references
a.yaml: together with resA it forms a reference cycle A→B→A. -/
def resB : ParsedResource :=
  ⟨"/repo/b.yaml", 1, "kustomize.toolkit.fluxcd.io/v1", "Kustomization", "b", "",
   [("spec", GoValue.map [("path", GoValue.str "./a.yaml")])], [], []⟩

/-- The cyclic two-resource graph, dependencies resolved. -/
def cycleGraph : ResourceGraph :=
  setDependencies ⟨[resA, resB]⟩ "/repo"

/-- A concrete well-formed YAML mapping node (apiVersion, kind and
metadata.name all present). -/
def sampleNode : YNode :=
  YNode.mk YKind.mapping "" 1
    [YNode.mk YKind.scalar "apiVersion" 1 [], YNode.mk YKind.scalar "v1" 1 [],
     YNode.mk YKind.scalar "kind" 2 [], YNode.mk YKind.scalar "ConfigMap" 2 [],
     YNode.mk YKind.scalar "metadata" 3 [],
     YNode.mk YKind.mapping "" 3
       [YNode.mk YKind.scalar "name" 3 [], YNode.mk YKind.scalar "cm" 3 []]]

/-- The resource parseResourceNode yields for sampleNode. -/
def sampleResource : ParsedResource :=
  ⟨"f.yaml", 1, "v1", "ConfigMap", "cm", "",
   [("apiVersion", GoValue.str "v1"),
    ("kind", GoValue.str "ConfigMap"),
    ("metadata", GoValue.map [("name", GoValue.str "cm")])], [], []⟩

/-- A kustomize kustomization at /repo/base/kustomization.yaml with a
resources entry and a patch. -/
def resKust : ParsedResource :=
  ⟨"/repo/base/kustomization.yaml", 1, "kustomize.config.k8s.io/v1beta1", "Kustomization",
   "base", "",
   [("resources", GoValue.list [GoValue.str "./ns.yaml"]),
    ("patches", GoValue.list [GoValue.map [("path", GoValue.str "./patch.yaml")]])], [], []⟩

/-- The empty validation context used by the pipeline witnesses. -/
def emptyCtx : ValidationContext :=
  ⟨⟨[]⟩, "/repo"⟩

/-- A validator whose execution always fails with a runtime error. -/
def failingValidator : GraphValidator :=
  ⟨"boom", fun _ => Except.error "kaput"⟩

/-- A registry holding only the failing validator. -/
def oneValidatorExecutor : PipelineExecutor :=
  ⟨[("boom", failingValidator)]⟩

/-- A non-required stage naming a check that is not registered. -/
def missingCheckStage : PipelineStage :=
  ⟨"stage-a", "", ["no-such-check"], false, false, ""⟩

/-- A stage running only the failing validator. -/
def failingCheckStage : PipelineStage :=
  ⟨"stage-b", "", ["boom"], false, true, ""⟩

/-- The per-validator outcome the sequential executor produces: the
validator's findings, or one synthetic "validator-error" finding when its
execution fails. -/
def validatorOutcome (ctx : ValidationContext) (validator : GraphValidator) :
    List ValidationResult :=
  match validator.Validate ctx with
  | Except.error e =>
    [mkSyntheticResult "validator-error" "error"
      ("Validator " ++ validator.NameOf ++ " failed: " ++ e)]
  | Except.ok validatorResults => validatorResults

/-- A Flux Kustomization whose only reference is a sourceRef (name
lookup) to the GitRepository named repo. -/
def resF : ParsedResource :=
  ⟨"/repo/flux.yaml", 1, "kustomize.toolkit.fluxcd.io/v1", "Kustomization", "flux-app", "",
   [("spec", GoValue.map [("sourceRef", GoValue.map [("name", GoValue.str "repo")])])], [], []⟩

/-- The GitRepository the sourceRef of resF targets. -/
def resG : ParsedResource :=
  ⟨"/repo/git.yaml", 1, "source.toolkit.fluxcd.io/v1", "GitRepository", "repo", "", [], [], []⟩

/-- The two-resource graph where resG's only incoming reference is the
sourceRef edge from resF, dependencies resolved. -/
def sourceRefGraph : ResourceGraph :=
  setDependencies ⟨[resF, resG]⟩ "/repo"

/-- A Flux Kustomization whose sourceRef names "app", which two namespaced
resources match by suffix. -/
def resS : ParsedResource :=
  ⟨"/repo/sync.yaml", 1, "kustomize.toolkit.fluxcd.io/v1", "Kustomization", "flux-sync", "",
   [("spec", GoValue.map [("sourceRef", GoValue.map [("name", GoValue.str "app")])])], [], []⟩

/-- A resource keyed ns1/app. -/
def resN1 : ParsedResource :=
  ⟨"/repo/one.yaml", 1, "v1", "ConfigMap", "app", "ns1", [], [], []⟩

/-- A resource keyed ns2/app. -/
def resN2 : ParsedResource :=
  ⟨"/repo/two.yaml", 1, "v1", "ConfigMap", "app", "ns2", [], [], []⟩

/-- A graph where the name "app" has two suffix-matching candidates. -/
def ambiguousGraph : ResourceGraph :=
  ⟨[resS, resN1, resN2]⟩

/-- A graph where the name "app" has exactly one suffix-matching
candidate. -/
def uniqueGraph : ResourceGraph :=
  ⟨[resS, resN1]⟩

/-- The key set of the graph's Resources map. -/
def graphKeys (g : ResourceGraph) : List String :=
  (resourcesMap g).map (fun kv => kv.1)

/-- The number of Resources-map keys not yet in the visited set: the
termination measure of the depth-first traversal. -/
def unvisitedCount (g : ResourceGraph) (visited : List String) : Nat :=
  ((graphKeys g).filter (fun k => !visited.contains k)).length

/-- The (unbounded) decimal value of a digit string: the place-value fold
whose 64-bit wrap parseInt computes on all-digit input. -/
def decimalValue (ds : List Char) : Int :=
  ds.foldl (fun a c => a * 10 + ((c.toNat : Int) - ('0'.toNat : Int))) 0

/-! # Theorems for the claims -/

/-! ## Shared helper lemmas -/

theorem chStarts_self_append (p s : List Char) : chStarts p (p ++ s) = true := by
  induction p with
  | nil => rfl
  | cons c cs ih => simp [chStarts, ih]

theorem chDropPre_self_append (p s : List Char) : chDropPre p (p ++ s) = s := by
  induction p with
  | nil => cases s <;> rfl
  | cons c cs ih => simpa [chDropPre] using ih

theorem chStarts_mismatch (common : List Char) (a b : Char) (s t : List Char)
    (h : a ≠ b) : chStarts (common ++ a :: s) (common ++ b :: t) = false := by
  induction common with
  | nil =>
    simp only [List.nil_append]
    unfold chStarts
    have hab : (a == b) = false := by
      rw [beq_eq_false_iff_ne]
      exact h
    rw [hab]
    rfl
  | cons c cs ih => simp [chStarts, ih]

theorem digit_not_space (c : Char) (h0 : '0' ≤ c) (_h9 : c ≤ '9') : isSpaceChar c = false := by
  unfold isSpaceChar
  have h1 : (c == ' ') = false := by
    cases hc : c == ' ' with
    | false => rfl
    | true => exact absurd (eq_of_beq hc ▸ h0) (by decide)
  have h2 : (c == '\t') = false := by
    cases hc : c == '\t' with
    | false => rfl
    | true => exact absurd (eq_of_beq hc ▸ h0) (by decide)
  have h3 : (c == '\n') = false := by
    cases hc : c == '\n' with
    | false => rfl
    | true => exact absurd (eq_of_beq hc ▸ h0) (by decide)
  have h4 : (c == '\r') = false := by
    cases hc : c == '\r' with
    | false => rfl
    | true => exact absurd (eq_of_beq hc ▸ h0) (by decide)
  rw [h1, h2, h3, h4]
  rfl

theorem digits_dropWhile_space (ds : List Char)
    (h : ∀ c ∈ ds, '0' ≤ c ∧ c ≤ '9') : ds.dropWhile isSpaceChar = ds := by
  cases ds with
  | nil => rfl
  | cons c cs =>
    have hc := h c (List.mem_cons_self c cs)
    rw [List.dropWhile_cons, digit_not_space c hc.1 hc.2]
    simp

theorem trimSpace_space_digits (ds : List Char)
    (h : ∀ c ∈ ds, '0' ≤ c ∧ c ≤ '9') :
    goTrimSpace (String.mk (' ' :: ds)) = String.mk ds := by
  unfold goTrimSpace
  have hrev : ∀ c ∈ ds.reverse, '0' ≤ c ∧ c ≤ '9' := by
    intro c hc
    exact h c (List.mem_reverse.1 hc)
  have h1 : (' ' :: ds).dropWhile isSpaceChar = ds := by
    rw [List.dropWhile_cons]
    simp only [show isSpaceChar ' ' = true from rfl, if_true]
    exact digits_dropWhile_space ds h
  rw [h1, digits_dropWhile_space ds.reverse hrev, List.reverse_reverse]

theorem char_toNat_le {a b : Char} (h : a ≤ b) : a.toNat ≤ b.toNat := by
  simpa [Char.le_def, UInt32.le_def, BitVec.le_def, Char.toNat, UInt32.toNat] using h

theorem intWrap64_bounds (n : Int) : -(2 ^ 63) ≤ intWrap64 n ∧ intWrap64 n < 2 ^ 63 := by
  unfold intWrap64
  have e1 : (2 : Int) ^ 64 = 18446744073709551616 := by norm_num
  have e2 : (2 : Int) ^ 63 = 9223372036854775808 := by norm_num
  have h1 : 0 ≤ n % (2 ^ 64) := Int.emod_nonneg n (by norm_num)
  have h2 : n % (2 ^ 64) < 2 ^ 64 := Int.emod_lt_of_pos n (by norm_num)
  rw [e1] at h1 h2
  split <;> rw [e1, e2] at * <;> omega

theorem intWrap64_modeq (n : Int) : Int.ModEq (2 ^ 64) (intWrap64 n) n := by
  show intWrap64 n % (2 ^ 64) = n % (2 ^ 64)
  unfold intWrap64
  have e1 : (2 : Int) ^ 64 = 18446744073709551616 := by norm_num
  have h1 : 0 ≤ n % (2 ^ 64) := Int.emod_nonneg n (by norm_num)
  have h2 : n % (2 ^ 64) < 2 ^ 64 := Int.emod_lt_of_pos n (by norm_num)
  rw [e1] at h1 h2
  split <;> rw [e1] at * <;> omega

theorem int_eq_of_modeq_bounds {a b : Int} (h : Int.ModEq (2 ^ 64) a b)
    (ha1 : -(2 ^ 63) ≤ a) (ha2 : a < 2 ^ 63)
    (hb1 : -(2 ^ 63) ≤ b) (hb2 : b < 2 ^ 63) : a = b := by
  have hd : (2 : Int) ^ 64 ∣ b - a := h.dvd
  have e1 : (2 : Int) ^ 64 = 18446744073709551616 := by norm_num
  have e2 : (2 : Int) ^ 63 = 9223372036854775808 := by norm_num
  rw [e1] at hd
  rw [e2] at ha1 ha2 hb1 hb2
  omega

theorem parse_fold_wrap :
    ∀ (l : List Char) (a b : Int),
      (∀ c ∈ l, '0' ≤ c ∧ c ≤ '9') →
      Int.ModEq (2 ^ 64) a b → -(2 ^ 63) ≤ a → a < 2 ^ 63 →
      Int.ModEq (2 ^ 64)
        (l.foldl (fun result char =>
          if '0' ≤ char ∧ char ≤ '9' then
            intWrap64 (result * 10 + ((char.toNat : Int) - ('0'.toNat : Int)))
          else result) a)
        (l.foldl (fun a c => a * 10 + ((c.toNat : Int) - ('0'.toNat : Int))) b) ∧
      -(2 ^ 63) ≤ l.foldl (fun result char =>
          if '0' ≤ char ∧ char ≤ '9' then
            intWrap64 (result * 10 + ((char.toNat : Int) - ('0'.toNat : Int)))
          else result) a ∧
      l.foldl (fun result char =>
          if '0' ≤ char ∧ char ≤ '9' then
            intWrap64 (result * 10 + ((char.toNat : Int) - ('0'.toNat : Int)))
          else result) a < 2 ^ 63 := by
  intro l
  induction l with
  | nil => intro a b _ hm h1 h2; exact ⟨hm, h1, h2⟩
  | cons c rest ih =>
    intro a b hl hm h1 h2
    have hc := hl c (List.mem_cons_self c rest)
    rw [List.foldl_cons, List.foldl_cons, if_pos hc]
    have hb := intWrap64_bounds (a * 10 + ((c.toNat : Int) - ('0'.toNat : Int)))
    refine ih _ _ (fun c' hc' => hl c' (List.mem_cons_of_mem c hc')) ?_ hb.1 hb.2
    exact (intWrap64_modeq _).trans ((hm.mul_right 10).add_right _)

theorem parseInt_digits (ds : List Char)
    (h : ∀ c ∈ ds, '0' ≤ c ∧ c ≤ '9') :
    goParseInt (String.mk ds) = intWrap64 (decimalValue ds) := by
  obtain ⟨hmod, hlb, hub⟩ :=
    parse_fold_wrap ds 0 0 h (Int.ModEq.refl 0) (by norm_num) (by norm_num)
  have hplain := intWrap64_modeq (decimalValue ds)
  have hbounds := intWrap64_bounds (decimalValue ds)
  exact int_eq_of_modeq_bounds
    (Int.ModEq.trans hmod (Int.ModEq.symm hplain)) hlb hub hbounds.1 hbounds.2

theorem decimalValue_nonneg (ds : List Char)
    (h : ∀ c ∈ ds, '0' ≤ c ∧ c ≤ '9') : 0 ≤ decimalValue ds := by
  unfold decimalValue
  have haux : ∀ (l : List Char) (a : Int), (∀ c ∈ l, '0' ≤ c ∧ c ≤ '9') → 0 ≤ a →
      0 ≤ l.foldl (fun a c => a * 10 + ((c.toNat : Int) - ('0'.toNat : Int))) a := by
    intro l
    induction l with
    | nil => intro a _ ha; exact ha
    | cons c rest ih =>
      intro a hl ha
      rw [List.foldl_cons]
      have hc := hl c (List.mem_cons_self c rest)
      have hd : (0 : Int) ≤ (c.toNat : Int) - ('0'.toNat : Int) := by
        have := char_toNat_le hc.1
        omega
      exact ih _ (fun c' hc' => hl c' (List.mem_cons_of_mem c hc')) (by omega)
  exact haux ds 0 h (le_refl 0)

theorem intWrap64_small {n : Int} (h0 : 0 ≤ n) (h1 : n < 2 ^ 63) : intWrap64 n = n := by
  unfold intWrap64
  have e1 : (2 : Int) ^ 64 = 18446744073709551616 := by norm_num
  have e2 : (2 : Int) ^ 63 = 9223372036854775808 := by norm_num
  rw [e2] at h1
  have hm : n % (2 ^ 64) = n := by rw [e1]; omega
  rw [hm, if_neg (by rw [e2]; omega)]

/-- C1: for every entry-point set, the traversal's visited resources and
FindOrphanedResources partition the ranged-over resource set of the graph:
their concatenation is a permutation of the full set and no resource lies
in both. -/
theorem orphan_analysis_partitions_resources
    (g : ResourceGraph) (ord ord2 : List (String × ParsedResource)) (repoPath : String)
    (entryPoints : List ParsedResource) :
    (visitedResources g ord ord2 repoPath entryPoints ++
        FindOrphanedResources g ord ord2 repoPath entryPoints).Perm
      (ord2.map (fun kv => kv.2)) ∧
    ∀ r, r ∈ visitedResources g ord ord2 repoPath entryPoints →
      r ∉ FindOrphanedResources g ord ord2 repoPath entryPoints := by
  constructor
  · exact List.filter_append_perm _ _
  · intro r hvis horph
    have h1 := List.of_mem_filter hvis
    have h2 := List.of_mem_filter horph
    rw [h1] at h2
    simp at h2

/-- C1 witness: the partition at a concrete graph and entry-point set. -/
theorem orphan_analysis_partitions_resources_witness :
    ((visitedResources cycleGraph (resourcesMap cycleGraph) (resourcesMap cycleGraph)
        "/repo" (cycleGraph.allResources.take 1) ++
      FindOrphanedResources cycleGraph (resourcesMap cycleGraph) (resourcesMap cycleGraph)
        "/repo" (cycleGraph.allResources.take 1)).Perm
      ((resourcesMap cycleGraph).map (fun kv => kv.2))) :=
  (orphan_analysis_partitions_resources cycleGraph (resourcesMap cycleGraph)
    (resourcesMap cycleGraph) "/repo" (cycleGraph.allResources.take 1)).1

/-- C10: a document parseResourceNode accepts always carries a non-empty
apiVersion, kind and metadata.name (a document where any of the three is
missing or empty parses to nil and is dropped by the ParseFile loop, so it
never enters the graph), and hence every resource ParseFileDocs produces
has all three identity fields non-empty. -/
theorem parsed_resources_have_identity_fields :
    (∀ node filePath r, parseResourceNode node filePath = some r →
      r.APIVersion ≠ "" ∧ r.Kind ≠ "" ∧ r.Name ≠ "") ∧
    (∀ filePath docs r, r ∈ ParseFileDocs filePath docs →
      r.APIVersion ≠ "" ∧ r.Kind ≠ "" ∧ r.Name ≠ "") := by
  have main : ∀ node filePath r, parseResourceNode node filePath = some r →
      r.APIVersion ≠ "" ∧ r.Kind ≠ "" ∧ r.Name ≠ "" := by
    intro node filePath r h
    unfold parseResourceNode at h
    split at h
    · exact absurd h (by simp)
    · dsimp only at h
      split at h
      · exact absurd h (by simp)
      · rename_i hfields
        push_neg at hfields
        cases h
        exact ⟨hfields.1, hfields.2.1, hfields.2.2⟩
  refine ⟨main, ?_⟩
  intro filePath docs r h
  unfold ParseFileDocs at h
  rw [List.mem_flatMap] at h
  obtain ⟨doc, _, hr⟩ := h
  split at hr
  · split at hr
    · split at hr
      · rename_i hparse
        rw [List.mem_singleton] at hr
        subst hr
        exact main _ _ _ hparse
      · simp at hr
    · simp at hr
  · simp at hr

/-- C10 witness: the theorem applied to the concrete sample document. -/
theorem parsed_resources_have_identity_fields_witness :
    sampleResource.APIVersion ≠ "" ∧ sampleResource.Kind ≠ "" ∧ sampleResource.Name ≠ "" :=
  parsed_resources_have_identity_fields.1 sampleNode "f.yaml" sampleResource rfl

/-- C2: the resolution base is selected by the owning resource's kind, not
by the path string: every reference the Flux-kustomization extractor emits
carries IsRelative=false and resolves against the repository root, every
reference the kustomize-kustomization extractor emits carries
IsRelative=true and resolves against the referencing file's directory, and
under those two bases textually identical reference strings resolve to
different absolute paths (./clusters/prod under /repo to
/repo/clusters/prod; ./ns.yaml next to /repo/base/kustomization.yaml to
/repo/base/ns.yaml, but to /repo/ns.yaml under the root base). -/
theorem reference_base_path_selected_by_owner_kind :
    (∀ r repoPath ref, ref ∈ extractFluxKustomizationReferences r repoPath →
      ref.IsRelative = false) ∧
    (∀ r repoPath ref, ref ∈ extractKubernetesKustomizationReferences r repoPath →
      ref.IsRelative = true) ∧
    (∀ path sourceFile repoPath,
      resolveReferenceFullPath path false sourceFile repoPath = goJoin repoPath path ∧
      resolveReferenceFullPath path true sourceFile repoPath = goJoin (goDir sourceFile) path) ∧
    (∀ sourceFile,
      resolveReferenceFullPath ("./clusters/prod") false sourceFile ("/repo") =
        "/repo/clusters/prod") ∧
    (resolveReferenceFullPath ("./ns.yaml") true ("/repo/base/kustomization.yaml") ("/repo") =
      "/repo/base/ns.yaml") ∧
    (resolveReferenceFullPath ("./ns.yaml") true ("/repo/base/kustomization.yaml") ("/repo") ≠
      resolveReferenceFullPath ("./ns.yaml") false ("/repo/base/kustomization.yaml") ("/repo")) := by
  refine ⟨?_, ?_, ?_, ?_, by decide, by decide⟩
  · intro r repoPath ref h
    unfold extractFluxKustomizationReferences at h
    split at h
    · simp at h
    · rcases List.mem_append.1 h with h1 | h1
      · split at h1
        · rw [List.mem_singleton] at h1; subst h1; rfl
        · simp at h1
      · split at h1
        · split at h1
          · rw [List.mem_singleton] at h1; subst h1; rfl
          · simp at h1
        · simp at h1
  · intro r repoPath ref h
    unfold extractKubernetesKustomizationReferences at h
    rcases List.mem_append.1 h with h12 | h3
    · rcases List.mem_append.1 h12 with h1 | h2
      · split at h1
        · rw [List.mem_filterMap] at h1
          obtain ⟨x, _, hx⟩ := h1
          split at hx
          · cases hx; rfl
          · cases hx
        · simp at h1
      · split at h2
        · rw [List.mem_filterMap] at h2
          obtain ⟨x, _, hx⟩ := h2
          split at hx
          · split at hx
            · cases hx; rfl
            · cases hx
          · cases hx
        · simp at h2
    · split at h3
      · rw [List.mem_filterMap] at h3
        obtain ⟨x, _, hx⟩ := h3
        split at hx
        · cases hx; rfl
        · cases hx
      · simp at h3
  · intro path sourceFile repoPath
    exact ⟨rfl, rfl⟩
  · intro sourceFile
    rfl

/-- C2 witness: the flag facts at the concrete Flux and kustomize
resources. -/
theorem reference_base_path_selected_by_owner_kind_witness :
    (⟨"flux-kustomization-path", "a", "/repo/a.yaml", 1, ReferenceTypePath, "./b.yaml",
      false⟩ : ResourceReference).IsRelative = false ∧
    (⟨"kustomization-resource", "base", "/repo/base/kustomization.yaml", 1,
      ReferenceTypeResource, "./ns.yaml", true⟩ : ResourceReference).IsRelative = true :=
  ⟨reference_base_path_selected_by_owner_kind.1 resA "/repo" _ (by decide),
   reference_base_path_selected_by_owner_kind.2.1 resKust "/repo" _ (by decide)⟩

/-- C8 counterexample: for the reference path /abs.yaml (which begins with
the separator) and base /repo, ResolvePath does not return the reference
path itself: it returns the join with the base, and the result depends on
the base. -/
theorem resolve_absolute_not_identity :
    (ResolvePath ("/repo") ("/abs.yaml")).1 = "/repo/abs.yaml" ∧
    (ResolvePath ("/repo") ("/abs.yaml")).1 ≠ "/abs.yaml" ∧
    (ResolvePath ("/repo") ("/abs.yaml")).1 ≠ (ResolvePath ("/other") ("/abs.yaml")).1 := by
  decide

/-- C8 amended: a reference beginning with the separator passes through
NormalizePath unchanged (no "./" stripping) with shouldResolve=true, but
ResolvePath still joins it onto the base directory: the returned full path
is Join(baseDir, path), not the reference path itself. -/
theorem absolute_reference_resolution (baseDir path : String)
    (h : goHasPre "/" path = true) :
    NormalizePath path = (path, true) ∧
    ResolvePath baseDir path = (goJoin baseDir path, true) := by
  have hsep : ("/").data = ['/'] := rfl
  have hd : ∃ rest, path.data = '/' :: rest := by
    unfold goHasPre at h
    rw [hsep] at h
    cases hpd : path.data with
    | nil => rw [hpd] at h; simp [chStarts] at h
    | cons c rest =>
      rw [hpd] at h
      unfold chStarts at h
      rw [Bool.and_eq_true] at h
      obtain ⟨hc, _⟩ := h
      have hcc : '/' = c := eq_of_beq hc
      exact ⟨rest, by rw [← hcc]⟩
  obtain ⟨rest, hrest⟩ := hd
  have hh1 : goHasPre "http://" path = false := by
    unfold goHasPre
    rw [hrest, show ("http://").data = 'h' :: "ttp://".data from rfl]
    unfold chStarts
    simp
  have hh2 : goHasPre "https://" path = false := by
    unfold goHasPre
    rw [hrest, show ("https://").data = 'h' :: "ttps://".data from rfl]
    unfold chStarts
    simp
  have hnorm : NormalizePath path = (path, true) := by
    unfold NormalizePath
    rw [hh1, hh2, h]
    simp
  refine ⟨hnorm, ?_⟩
  unfold ResolvePath
  rw [hnorm]
  simp

/-- C8 witness: the amended behaviour at a concrete absolute reference. -/
theorem absolute_reference_resolution_witness :
    NormalizePath ("/clusters/app.yaml") = ("/clusters/app.yaml", true) ∧
    ResolvePath ("/repo") ("/clusters/app.yaml") =
      (goJoin ("/repo") ("/clusters/app.yaml"), true) :=
  absolute_reference_resolution "/repo" "/clusters/app.yaml" (by decide)

/-- C5: a stage that names an unregistered check fails with that error;
when the stage is required the pipeline loop aborts, returning the error
and running no later stage; when it is not required exactly one synthetic
"pipeline-stage-error" finding of severity error replaces the stage's
results and the loop continues with every remaining stage; and the
validator-collection loop fails exactly when some named check is
unregistered. -/
theorem pipeline_unregistered_check_semantics
    (pe : PipelineExecutor) (ctx : ValidationContext) (stage : PipelineStage)
    (rest : List PipelineStage) (acc : List ValidationResult) (e : String)
    (hcond : stage.Condition = "" ∨ evaluateCondition stage.Condition ctx = true)
    (hmiss : collectStageValidators pe stage.Validators = Except.error e) :
    executeStage pe stage ctx = Except.error e ∧
    (stage.Required = true →
      ExecutePipelineStages pe ctx (stage :: rest) acc =
        (acc, some ("required stage '" ++ stage.Name ++ "' failed: " ++ e))) ∧
    (stage.Required = false →
      ExecutePipelineStages pe ctx (stage :: rest) acc =
        ExecutePipelineStages pe ctx rest
          (acc ++ [mkSyntheticResult "pipeline-stage-error" "error"
            ("Stage '" ++ stage.Name ++ "' failed: " ++ e)])) ∧
    (∀ names, (∃ n ∈ names, lookupValidator pe n = none) ↔
      ∃ e', collectStageValidators pe names = Except.error e') := by
  have hstage : executeStage pe stage ctx = Except.error e := by
    unfold executeStage
    have hcfalse : ¬ (stage.Condition ≠ "" ∧ evaluateCondition stage.Condition ctx = false) := by
      rcases hcond with hc | hc
      · intro hcontra; exact hcontra.1 hc
      · intro hcontra; rw [hc] at hcontra; exact absurd hcontra.2 (by simp)
    rw [if_neg hcfalse, hmiss]
  refine ⟨hstage, ?_, ?_, ?_⟩
  · intro hreq
    simp only [ExecutePipelineStages, hstage, hreq, if_true]
  · intro hreq
    simp only [ExecutePipelineStages, hstage, hreq, if_false, Bool.false_eq_true]
  · intro names
    induction names with
    | nil =>
      constructor
      · rintro ⟨n, hn, _⟩; simp at hn
      · rintro ⟨e', he'⟩; unfold collectStageValidators at he'; cases he'
    | cons n ns ih =>
      constructor
      · rintro ⟨n', hn', hmiss'⟩
        rcases List.mem_cons.1 hn' with rfl | hmem
        · exact ⟨_, by unfold collectStageValidators; rw [hmiss']⟩
        · unfold collectStageValidators
          cases hl : lookupValidator pe n with
          | none => exact ⟨_, rfl⟩
          | some v =>
            obtain ⟨e', he'⟩ := ih.1 ⟨n', hmem, hmiss'⟩
            rw [he']
            exact ⟨e', rfl⟩
      · rintro ⟨e', he'⟩
        unfold collectStageValidators at he'
        cases hl : lookupValidator pe n with
        | none => exact ⟨n, List.mem_cons_self n ns, hl⟩
        | some v =>
          rw [hl] at he'
          cases hrec : collectStageValidators pe ns with
          | ok vs => rw [hrec] at he'; cases he'
          | error e2 =>
            obtain ⟨n', hmem, hn'⟩ := ih.2 ⟨e2, hrec⟩
            exact ⟨n', List.mem_cons_of_mem n hmem, hn'⟩

/-- C5 witness: the semantics at a concrete pipeline whose only stage
names an unregistered check. -/
theorem pipeline_unregistered_check_semantics_witness :
    ExecutePipelineStages oneValidatorExecutor emptyCtx [missingCheckStage] [] =
      ([mkSyntheticResult "pipeline-stage-error" "error"
        ("Stage 'stage-a' failed: validator 'no-such-check' not found")], none) := by
  have h := (pipeline_unregistered_check_semantics oneValidatorExecutor emptyCtx
    missingCheckStage [] [] ("validator 'no-such-check' not found")
    (Or.inl rfl) rfl).2.2.1 rfl
  rw [h]
  rfl

/-- C6: in every stage, sequentially or in parallel, a check's own runtime
error becomes exactly one synthetic "validator-error" finding of severity
error naming the failing check, in place of that check's results, and the
remaining checks of the stage still run: the executors compute the
concatenation of every validator's outcome, and a stage whose checks are
all registered never fails, whatever errors the checks return. -/
theorem check_runtime_errors_become_findings :
    (∀ validators ctx, executeValidatorsSequential validators ctx =
      (validators.map (validatorOutcome ctx)).flatten) ∧
    (∀ validators ctx, executeValidatorsParallel validators ctx =
      executeValidatorsSequential validators ctx) ∧
    (∀ validator ctx e, validator.Validate ctx = Except.error e →
      validatorOutcome ctx validator =
        [mkSyntheticResult "validator-error" "error"
          ("Validator " ++ validator.NameOf ++ " failed: " ++ e)]) ∧
    (∀ pe stage ctx stageValidators,
      (stage.Condition = "" ∨ evaluateCondition stage.Condition ctx = true) →
      collectStageValidators pe stage.Validators = Except.ok stageValidators →
      stageValidators.length ≠ 0 →
      executeStage pe stage ctx =
        Except.ok ((stageValidators.map (validatorOutcome ctx)).flatten)) := by
  have haux : ∀ ctx validators acc, executeValidatorsSequentialAux ctx acc validators =
      acc ++ (validators.map (validatorOutcome ctx)).flatten := by
    intro ctx validators
    induction validators with
    | nil => intro acc; simp [executeValidatorsSequentialAux]
    | cons v vs ih =>
      intro acc
      cases hv : v.Validate ctx with
      | error e =>
        simp only [executeValidatorsSequentialAux, validatorOutcome, hv, ih,
          List.map_cons, List.flatten_cons, List.append_assoc]
      | ok rs =>
        simp only [executeValidatorsSequentialAux, validatorOutcome, hv, ih,
          List.map_cons, List.flatten_cons, List.append_assoc]
  have hseq : ∀ validators ctx, executeValidatorsSequential validators ctx =
      (validators.map (validatorOutcome ctx)).flatten := by
    intro validators ctx
    unfold executeValidatorsSequential
    rw [haux]
    simp
  refine ⟨hseq, fun validators ctx => rfl, ?_, ?_⟩
  · intro validator ctx e hv
    unfold validatorOutcome
    rw [hv]
  · intro pe stage ctx stageValidators hcond hcollect hlen
    unfold executeStage
    have hcfalse : ¬ (stage.Condition ≠ "" ∧ evaluateCondition stage.Condition ctx = false) := by
      rcases hcond with hc | hc
      · intro hcontra; exact hcontra.1 hc
      · intro hcontra; rw [hc] at hcontra; exact absurd hcontra.2 (by simp)
    rw [if_neg hcfalse, hcollect]
    simp only [if_neg hlen]
    unfold executeValidatorsParallel
    split
    · rw [hseq]
    · rw [hseq]

/-- C6 witness: a stage whose sole check fails at runtime yields exactly
the one synthetic finding and the stage succeeds. -/
theorem check_runtime_errors_become_findings_witness :
    executeStage oneValidatorExecutor failingCheckStage emptyCtx =
      Except.ok [mkSyntheticResult "validator-error" "error"
        ("Validator boom failed: kaput")] := by
  have h := check_runtime_errors_become_findings.2.2.2 oneValidatorExecutor
    failingCheckStage emptyCtx [failingValidator] (Or.inl rfl) rfl (by decide)
  rw [h]
  rfl

theorem goTrimPre_self_append (pre : String) (s : List Char) :
    goTrimPre pre (String.mk (pre.data ++ s)) = String.mk s := by
  unfold goTrimPre
  rw [show (String.mk (pre.data ++ s)).data = pre.data ++ s from rfl]
  rw [chStarts_self_append, if_pos rfl, chDropPre_self_append]

theorem threshold_value (pre : String) (ds : List Char)
    (hds : ∀ c ∈ ds, '0' ≤ c ∧ c ≤ '9') :
    goParseInt (goTrimSpace (goTrimPre pre (String.mk (pre.data ++ (' ' :: ds))))) =
      intWrap64 (decimalValue ds) := by
  rw [goTrimPre_self_append, trimSpace_space_digits ds hds, parseInt_digits ds hds]

/-- C7 counterexample: the condition "file_count < 0" is inside the
claimed grammar {resource_count|file_count} {>|<} integer, yet the stage
is not gated by the comparison: evaluateCondition returns true although
the file count is not below the threshold, because the evaluator has no
"file_count <" branch and falls through to the default. -/
theorem condition_file_count_less_counterexample :
    evaluateCondition ("file_count < 0") emptyCtx = true ∧
    ¬ (filesKeys emptyCtx.Graph).length < 0 := by
  refine ⟨by decide, by decide⟩

/-- C7 amended: the implemented condition grammar is resource_count > n,
resource_count < n and file_count > n, each gating the stage by the stated
comparison against the 64-bit-wrapped Go-int value of the digit string
(equal to its decimal value whenever that value is below 2^63); every
other condition string, including every file_count < n condition,
evaluates to true so the stage always runs. -/
theorem condition_grammar_semantics :
    (∀ ctx ds, (∀ c ∈ ds, '0' ≤ c ∧ c ≤ '9') →
      evaluateCondition (String.mk (("resource_count > ").data ++ ds)) ctx =
        decide (((resourcesMap ctx.Graph).length : Int) > intWrap64 (decimalValue ds))) ∧
    (∀ ctx ds, (∀ c ∈ ds, '0' ≤ c ∧ c ≤ '9') →
      evaluateCondition (String.mk (("resource_count < ").data ++ ds)) ctx =
        decide (((resourcesMap ctx.Graph).length : Int) < intWrap64 (decimalValue ds))) ∧
    (∀ ctx ds, (∀ c ∈ ds, '0' ≤ c ∧ c ≤ '9') →
      evaluateCondition (String.mk (("file_count > ").data ++ ds)) ctx =
        decide (((filesKeys ctx.Graph).length : Int) > intWrap64 (decimalValue ds))) ∧
    (∀ ds, (∀ c ∈ ds, '0' ≤ c ∧ c ≤ '9') →
      0 ≤ decimalValue ds ∧
      (decimalValue ds < 2 ^ 63 → intWrap64 (decimalValue ds) = decimalValue ds)) ∧
    (∀ cond ctx, goHasPre "resource_count >" cond = false →
      goHasPre "resource_count <" cond = false →
      goHasPre "file_count >" cond = false →
      evaluateCondition cond ctx = true) ∧
    (∀ ctx ds, evaluateCondition (String.mk (("file_count < ").data ++ ds)) ctx = true) := by
  have hdefault : ∀ cond ctx, goHasPre "resource_count >" cond = false →
      goHasPre "resource_count <" cond = false →
      goHasPre "file_count >" cond = false →
      evaluateCondition cond ctx = true := by
    intro cond ctx h1 h2 h3
    unfold evaluateCondition
    rw [h1, h2, h3]
    rfl
  refine ⟨?_, ?_, ?_, ?_, hdefault, ?_⟩
  · intro ctx ds hds
    show evaluateCondition (String.mk (("resource_count >").data ++ (' ' :: ds))) ctx = _
    have hpre : goHasPre "resource_count >"
        (String.mk (("resource_count >").data ++ (' ' :: ds))) = true := by
      unfold goHasPre
      exact chStarts_self_append _ _
    unfold evaluateCondition
    simp only [hpre, eq_self_iff_true, if_true,
      threshold_value "resource_count >" ds hds]
  · intro ctx ds hds
    show evaluateCondition (String.mk (("resource_count <").data ++ (' ' :: ds))) ctx = _
    have hpre1 : goHasPre "resource_count >"
        (String.mk (("resource_count <").data ++ (' ' :: ds))) = false := by
      unfold goHasPre
      rw [show ("resource_count >").data = ("resource_count ").data ++ '>' :: [] from rfl,
        show ("resource_count <").data = ("resource_count ").data ++ '<' :: [] from rfl,
        List.append_assoc]
      exact chStarts_mismatch _ '>' '<' [] _ (by decide)
    have hpre2 : goHasPre "resource_count <"
        (String.mk (("resource_count <").data ++ (' ' :: ds))) = true := by
      unfold goHasPre
      exact chStarts_self_append _ _
    unfold evaluateCondition
    simp only [hpre1, hpre2, Bool.false_eq_true, if_false, eq_self_iff_true, if_true,
      threshold_value "resource_count <" ds hds]
  · intro ctx ds hds
    show evaluateCondition (String.mk (("file_count >").data ++ (' ' :: ds))) ctx = _
    have hpre1 : goHasPre "resource_count >"
        (String.mk (("file_count >").data ++ (' ' :: ds))) = false := by
      unfold goHasPre
      rw [show ("resource_count >").data = ([] : List Char) ++ 'r' :: "esource_count >".data
          from rfl,
        show ("file_count >").data ++ (' ' :: ds) =
          ([] : List Char) ++ 'f' :: (("ile_count >").data ++ (' ' :: ds)) from rfl]
      exact chStarts_mismatch [] 'r' 'f' _ _ (by decide)
    have hpre2 : goHasPre "resource_count <"
        (String.mk (("file_count >").data ++ (' ' :: ds))) = false := by
      unfold goHasPre
      rw [show ("resource_count <").data = ([] : List Char) ++ 'r' :: "esource_count <".data
          from rfl,
        show ("file_count >").data ++ (' ' :: ds) =
          ([] : List Char) ++ 'f' :: (("ile_count >").data ++ (' ' :: ds)) from rfl]
      exact chStarts_mismatch [] 'r' 'f' _ _ (by decide)
    have hpre3 : goHasPre "file_count >"
        (String.mk (("file_count >").data ++ (' ' :: ds))) = true := by
      unfold goHasPre
      exact chStarts_self_append _ _
    unfold evaluateCondition
    simp only [hpre1, hpre2, hpre3, Bool.false_eq_true, if_false, eq_self_iff_true, if_true,
      threshold_value "file_count >" ds hds]
  · intro ds hds
    exact ⟨decimalValue_nonneg ds hds,
      fun hlt => intWrap64_small (decimalValue_nonneg ds hds) hlt⟩
  · intro ctx ds
    apply hdefault
    · unfold goHasPre
      rw [show ("resource_count >").data = ([] : List Char) ++ 'r' :: "esource_count >".data
          from rfl,
        show (String.mk (("file_count < ").data ++ ds)).data =
          ([] : List Char) ++ 'f' :: (("ile_count < ").data ++ ds) from rfl]
      exact chStarts_mismatch [] 'r' 'f' _ _ (by decide)
    · unfold goHasPre
      rw [show ("resource_count <").data = ([] : List Char) ++ 'r' :: "esource_count <".data
          from rfl,
        show (String.mk (("file_count < ").data ++ ds)).data =
          ([] : List Char) ++ 'f' :: (("ile_count < ").data ++ ds) from rfl]
      exact chStarts_mismatch [] 'r' 'f' _ _ (by decide)
    · unfold goHasPre
      rw [show ("file_count >").data = ("file_count ").data ++ '>' :: [] from rfl,
        show (String.mk (("file_count < ").data ++ ds)).data =
          ("file_count ").data ++ ('<' :: [' ']) ++ ds from rfl,
        List.append_assoc]
      exact chStarts_mismatch _ '>' '<' [] _ (by decide)

/-- C7 witness: the amended grammar at concrete conditions and the empty
context. -/
theorem condition_grammar_semantics_witness :
    evaluateCondition (String.mk (("resource_count > ").data ++ ['4', '2'])) emptyCtx =
      decide (((resourcesMap emptyCtx.Graph).length : Int) > intWrap64 (decimalValue ['4', '2'])) ∧
    evaluateCondition (String.mk (("file_count < ").data ++ ['7'])) emptyCtx = true :=
  ⟨condition_grammar_semantics.1 emptyCtx ['4', '2'] (by decide),
   condition_grammar_semantics.2.2.2.2.2 emptyCtx ['7']⟩

/-- C4 counterexample: in sourceRefGraph the entry point's only dependency
is a sourceRef (name-lookup) reference, FindTargetResource does resolve
that name to the GitRepository resG, yet the traversal never follows the
edge: resG is reported as an orphan. -/
theorem sourceref_target_reported_orphan :
    (sourceRefGraph.allResources.take 1).map (fun r => r.Dependencies) =
      [[⟨"flux-source", "repo", "/repo/flux.yaml", 1, ReferenceTypeSourceRef, "repo",
         false⟩]] ∧
    (findResourceByName sourceRefGraph (resourcesMap sourceRefGraph) "repo").map
      GetResourceKey = some "repo" ∧
    (FindOrphanedResources sourceRefGraph (resourcesMap sourceRefGraph)
      (resourcesMap sourceRefGraph) "/repo" (sourceRefGraph.allResources.take 1)).map
      GetResourceKey = ["repo"] := by
  refine ⟨by decide, by decide, by decide⟩

/-- C4 amended: the dependency filter of the traversal admits exactly the
"path" and "resource" reference types; sourceRef and chart edges are
skipped, and an admitted "resource" edge resolves to no target (it has no
case in FindTargetResource), so effectively only path edges extend the
visited set, while a path edge with a target recurses into it. -/
theorem traversal_edge_filter (step : ParsedResource → List String → List String)
    (g : ResourceGraph) (ord : List (String × ParsedResource)) (repoPath : String)
    (r : ParsedResource) (dep : ResourceReference) (visited : List String) :
    (dep.ReferenceType ≠ ReferenceTypePath →
      traverseDepStep step g ord repoPath r dep visited = visited) ∧
    ((dep.ReferenceType = ReferenceTypeSourceRef ∨ dep.ReferenceType = ReferenceTypeChart) →
      traverseDepStep step g ord repoPath r dep visited = visited) ∧
    (dep.ReferenceType = ReferenceTypeResource →
      FindTargetResource g ord dep r repoPath = none) ∧
    (∀ t, dep.ReferenceType = ReferenceTypePath →
      FindTargetResource g ord dep r repoPath = some t →
      traverseDepStep step g ord repoPath r dep visited = step t visited) := by
  have hres : dep.ReferenceType = ReferenceTypeResource →
      FindTargetResource g ord dep r repoPath = none := by
    intro h
    unfold FindTargetResource
    rw [h]
    rw [if_neg (by decide), if_neg (by decide), if_neg (by decide)]
  have hnotpath : dep.ReferenceType ≠ ReferenceTypePath →
      traverseDepStep step g ord repoPath r dep visited = visited := by
    intro h
    unfold traverseDepStep
    by_cases hr2 : dep.ReferenceType = ReferenceTypeResource
    · rw [if_pos (Or.inr hr2), hres hr2]
    · rw [if_neg ?_]
      intro hor
      rcases hor with hor | hor
      · exact h hor
      · exact hr2 hor
  refine ⟨hnotpath, ?_, hres, ?_⟩
  · intro h
    apply hnotpath
    rcases h with h | h <;> rw [h] <;> decide
  · intro t hpath htarget
    unfold traverseDepStep
    rw [if_pos (Or.inl hpath), htarget]

/-- C4 witness: a chart-type dependency leaves the visited set unchanged
at concrete inputs. -/
theorem traversal_edge_filter_witness :
    traverseDepStep (fun _ visited => visited) cycleGraph (resourcesMap cycleGraph) "/repo"
      resA ⟨"helm-chart", "c", "/repo/a.yaml", 1, ReferenceTypeChart, "c", false⟩ ["k"] =
      ["k"] :=
  (traversal_edge_filter (fun _ visited => visited) cycleGraph (resourcesMap cycleGraph)
    "/repo" resA ⟨"helm-chart", "c", "/repo/a.yaml", 1, ReferenceTypeChart, "c", false⟩
    ["k"]).2.1 (Or.inr rfl)

/-- C9 counterexample: over the unchanged resource set of ambiguousGraph,
two legitimate Resources-map range orders resolve the same sourceRef
reference to different targets, so the resolved reverse edges (the
ReferencedBy entries) differ between the two builds. -/
theorem graph_build_order_dependent :
    (buildReverseEdges ambiguousGraph ambiguousGraph.allResources
      (resourcesMap ambiguousGraph) "/repo").map (fun e => GetResourceKey e.1) =
      ["ns1/app"] ∧
    (buildReverseEdges ambiguousGraph ambiguousGraph.allResources
      ((resourcesMap ambiguousGraph).reverse) "/repo").map (fun e => GetResourceKey e.1) =
      ["ns2/app"] := by
  refine ⟨by decide, by decide⟩

theorem find?_perm_of_unique {α : Type} (p : α → Bool) {l l' : List α}
    (hperm : l.Perm l')
    (huniq : ∀ x ∈ l, ∀ y ∈ l, p x = true → p y = true → x = y) :
    l.find? p = l'.find? p := by
  cases hfl : l.find? p with
  | none =>
    cases hfl' : l'.find? p with
    | none => rfl
    | some y =>
      have hy := List.find?_some hfl'
      have hym : y ∈ l := hperm.symm.subset (List.mem_of_find?_eq_some hfl')
      exact absurd hy (List.find?_eq_none.1 hfl y hym)
  | some x =>
    have hx := List.find?_some hfl
    have hxm := List.mem_of_find?_eq_some hfl
    cases hfl' : l'.find? p with
    | none =>
      exact absurd hx (List.find?_eq_none.1 hfl' x (hperm.subset hxm))
    | some y =>
      have hy := List.find?_some hfl'
      have hym : y ∈ l := hperm.symm.subset (List.mem_of_find?_eq_some hfl')
      rw [huniq x hxm y hym hx hy]

theorem findResourceByName_ord_congr (g : ResourceGraph)
    {ord ord' : List (String × ParsedResource)} (h : ord.Perm ord') (name : String)
    (huniq : mapLookup (resourcesMap g) name = none →
      ∀ kv₁ ∈ ord, ∀ kv₂ ∈ ord, goHasSuf kv₁.1 ("/" ++ name) = true →
        goHasSuf kv₂.1 ("/" ++ name) = true → kv₁ = kv₂) :
    findResourceByName g ord name = findResourceByName g ord' name := by
  unfold findResourceByName
  cases hlook : mapLookup (resourcesMap g) name with
  | some r => rfl
  | none => rw [find?_perm_of_unique _ h (huniq hlook)]

theorem FindTargetResource_ord_congr (g : ResourceGraph)
    {ord ord' : List (String × ParsedResource)} (h : ord.Perm ord')
    (ref : ResourceReference) (r : ParsedResource) (repoPath : String)
    (huniq : ref.ReferenceType = ReferenceTypeSourceRef →
      mapLookup (resourcesMap g) ref.Path = none →
      ∀ kv₁ ∈ ord, ∀ kv₂ ∈ ord, goHasSuf kv₁.1 ("/" ++ ref.Path) = true →
        goHasSuf kv₂.1 ("/" ++ ref.Path) = true → kv₁ = kv₂) :
    FindTargetResource g ord ref r repoPath = FindTargetResource g ord' ref r repoPath := by
  unfold FindTargetResource
  by_cases h1 : ref.ReferenceType = ReferenceTypePath
  · rw [if_pos h1, if_pos h1]
  · rw [if_neg h1, if_neg h1]
    by_cases h2 : ref.ReferenceType = ReferenceTypeSourceRef
    · rw [if_pos h2, if_pos h2]
      exact findResourceByName_ord_congr g h ref.Path (huniq h2)
    · rw [if_neg h2, if_neg h2]

theorem filterMap_congr_mem {α β : Type} {f g : α → Option β} :
    ∀ (l : List α), (∀ a ∈ l, f a = g a) → l.filterMap f = l.filterMap g := by
  intro l
  induction l with
  | nil => intro _; rfl
  | cons a rest ih =>
    intro h
    rw [List.filterMap_cons, List.filterMap_cons, h a (List.mem_cons_self a rest),
      ih (fun a' ha' => h a' (List.mem_cons_of_mem a ha'))]

theorem buildReverseEdges_ordName_congr (g : ResourceGraph)
    (iter : List ParsedResource) {ordName ordName' : List (String × ParsedResource)}
    (ho : ordName.Perm ordName') (repoPath : String)
    (huniq : ∀ r ∈ iter, ∀ ref ∈ ExtractReferences r repoPath,
      ref.ReferenceType = ReferenceTypeSourceRef →
      mapLookup (resourcesMap g) ref.Path = none →
      ∀ kv₁ ∈ ordName, ∀ kv₂ ∈ ordName, goHasSuf kv₁.1 ("/" ++ ref.Path) = true →
        goHasSuf kv₂.1 ("/" ++ ref.Path) = true → kv₁ = kv₂) :
    buildReverseEdges g iter ordName repoPath = buildReverseEdges g iter ordName' repoPath := by
  unfold buildReverseEdges
  induction iter with
  | nil => rfl
  | cons r rest ih =>
    rw [List.flatMap_cons, List.flatMap_cons]
    rw [filterMap_congr_mem _ (fun ref href => ?_),
      ih (fun r' hr' => huniq r' (List.mem_cons_of_mem r hr'))]
    rw [FindTargetResource_ord_congr g ho ref r repoPath
      (fun h2 => huniq r (List.mem_cons_self r rest) ref href h2)]

theorem FindTargetResource_traversal_ord_indep (g : ResourceGraph)
    (ord ord' : List (String × ParsedResource)) (ref : ResourceReference)
    (r : ParsedResource) (repoPath : String)
    (h : ref.ReferenceType = ReferenceTypePath ∨ ref.ReferenceType = ReferenceTypeResource) :
    FindTargetResource g ord ref r repoPath = FindTargetResource g ord' ref r repoPath := by
  unfold FindTargetResource
  rcases h with h | h
  · rw [if_pos h, if_pos h]
  · have hnp : ref.ReferenceType ≠ ReferenceTypePath := by rw [h]; decide
    have hns : ref.ReferenceType ≠ ReferenceTypeSourceRef := by rw [h]; decide
    have hnc : ref.ReferenceType ≠ ReferenceTypeChart := by rw [h]; decide
    rw [if_neg hnp, if_neg hnp, if_neg hns, if_neg hns, if_neg hnc]

theorem traverseDepStep_ord_indep (step : ParsedResource → List String → List String)
    (g : ResourceGraph) (ord ord' : List (String × ParsedResource)) (repoPath : String)
    (r : ParsedResource) (dep : ResourceReference) (visited : List String) :
    traverseDepStep step g ord repoPath r dep visited =
      traverseDepStep step g ord' repoPath r dep visited := by
  unfold traverseDepStep
  by_cases h : dep.ReferenceType = ReferenceTypePath ∨ dep.ReferenceType = ReferenceTypeResource
  · rw [if_pos h, if_pos h, FindTargetResource_traversal_ord_indep g ord ord' dep r repoPath h]
  · rw [if_neg h, if_neg h]

theorem traverseFuel_ord_indep (g : ResourceGraph)
    (ord ord' : List (String × ParsedResource)) (repoPath : String) :
    ∀ (fuel : Nat) (r : ParsedResource) (visited : List String),
      traverseFuel g ord repoPath fuel r visited =
        traverseFuel g ord' repoPath fuel r visited := by
  intro fuel
  induction fuel with
  | zero => intro r visited; rfl
  | succ fuel ih =>
    intro r visited
    simp only [traverseFuel]
    by_cases h : visited.contains (GetResourceKey r) = true
    · rw [if_pos h, if_pos h]
    · rw [if_neg h, if_neg h]
      have hdeps : ∀ (deps : List ResourceReference) (vis : List String),
          traverseDeps (traverseFuel g ord repoPath fuel) g ord repoPath r deps vis =
            traverseDeps (traverseFuel g ord' repoPath fuel) g ord' repoPath r deps vis := by
        intro deps
        induction deps with
        | nil => intro vis; rfl
        | cons dep rest ihd =>
          intro vis
          have hstep : traverseDepStep (traverseFuel g ord repoPath fuel) g ord repoPath r
              dep vis =
              traverseDepStep (traverseFuel g ord' repoPath fuel) g ord' repoPath r dep vis := by
            rw [traverseDepStep_ord_indep (traverseFuel g ord repoPath fuel) g ord ord'
              repoPath r dep vis]
            unfold traverseDepStep
            split
            · split
              · exact ih _ _
              · rfl
            · rfl
          have hu₁ : traverseDeps (traverseFuel g ord repoPath fuel) g ord repoPath r
              (dep :: rest) vis =
              traverseDeps (traverseFuel g ord repoPath fuel) g ord repoPath r rest
                (traverseDepStep (traverseFuel g ord repoPath fuel) g ord repoPath r dep
                  vis) := rfl
          have hu₂ : traverseDeps (traverseFuel g ord' repoPath fuel) g ord' repoPath r
              (dep :: rest) vis =
              traverseDeps (traverseFuel g ord' repoPath fuel) g ord' repoPath r rest
                (traverseDepStep (traverseFuel g ord' repoPath fuel) g ord' repoPath r dep
                  vis) := rfl
          rw [hu₁, hu₂, hstep]
          exact ihd _
      exact hdeps r.Dependencies (GetResourceKey r :: visited)

theorem orphanTraversalVisited_ord_indep (g : ResourceGraph)
    (ord ord' : List (String × ParsedResource)) (repoPath : String)
    (entryPoints : List ParsedResource) :
    orphanTraversalVisited g ord repoPath entryPoints =
      orphanTraversalVisited g ord' repoPath entryPoints := by
  unfold orphanTraversalVisited traverseFromResource
  exact List.foldl_ext _ _ _
    (fun vis e _ => traverseFuel_ord_indep g ord ord' repoPath _ e vis)

/-- C9 amended: each resource's extracted Dependencies list is a function
of the resource alone; the resolved reverse-edge multiset is the same for
any two Resources-map range orders provided every sourceRef name resolves
by exact key match or has at most one suffix-matching entry (with several
suffix-matching candidates and no exact match, the chosen target depends
on the unspecified map range order — see the counterexample); and the
orphan set is identical, as a multiset over the ranged-over resource set,
for all map range orders unconditionally, since the traversal follows only
path-kind edges and never consults the name index's range order. -/
theorem graph_build_deterministic_under_unique_names (g : ResourceGraph) (repoPath : String)
    (iter iter' : List ParsedResource) (ordName ordName' : List (String × ParsedResource))
    (hi : iter.Perm iter') (ho : ordName.Perm ordName')
    (huniq : ∀ r ∈ iter, ∀ ref ∈ ExtractReferences r repoPath,
      ref.ReferenceType = ReferenceTypeSourceRef →
      mapLookup (resourcesMap g) ref.Path = none →
      ∀ kv₁ ∈ ordName, ∀ kv₂ ∈ ordName, goHasSuf kv₁.1 ("/" ++ ref.Path) = true →
        goHasSuf kv₂.1 ("/" ++ ref.Path) = true → kv₁ = kv₂) :
    (buildReverseEdges g iter ordName repoPath).Perm
      (buildReverseEdges g iter' ordName' repoPath) ∧
    (setDependencies g repoPath).allResources.map (fun r => r.Dependencies) =
      g.allResources.map (fun r => ExtractReferences r repoPath) ∧
    (∀ (ordA ordB ord2A ord2B : List (String × ParsedResource))
      (entryPoints : List ParsedResource), ord2A.Perm ord2B →
      (FindOrphanedResources g ordA ord2A repoPath entryPoints).Perm
        (FindOrphanedResources g ordB ord2B repoPath entryPoints)) := by
  refine ⟨?_, ?_, ?_⟩
  · rw [buildReverseEdges_ordName_congr g iter ho repoPath huniq]
    exact List.Perm.flatMap_right _ hi
  · unfold setDependencies
    simp only [List.map_map]
    rfl
  · intro ordA ordB ord2A ord2B entryPoints hperm
    unfold FindOrphanedResources
    rw [orphanTraversalVisited_ord_indep g ordA ordB repoPath entryPoints]
    exact (hperm.map _).filter _

/-- C9 witness: order-independence at uniqueGraph, where the sourceRef
name "app" has exactly one suffix-matching key. -/
theorem graph_build_deterministic_under_unique_names_witness :
    (buildReverseEdges uniqueGraph uniqueGraph.allResources (resourcesMap uniqueGraph)
      "/repo").Perm
      (buildReverseEdges uniqueGraph uniqueGraph.allResources.reverse
        ((resourcesMap uniqueGraph).reverse) "/repo") := by
  have hmap : resourcesMap uniqueGraph = [("flux-sync", resS), ("ns1/app", resN1)] := rfl
  have huniq : ∀ r ∈ uniqueGraph.allResources, ∀ ref ∈ ExtractReferences r "/repo",
      ref.ReferenceType = ReferenceTypeSourceRef →
      mapLookup (resourcesMap uniqueGraph) ref.Path = none →
      ∀ kv₁ ∈ resourcesMap uniqueGraph, ∀ kv₂ ∈ resourcesMap uniqueGraph,
        goHasSuf kv₁.1 ("/" ++ ref.Path) = true →
        goHasSuf kv₂.1 ("/" ++ ref.Path) = true → kv₁ = kv₂ := by
    intro r hr ref href htype _hnone kv₁ h1 kv₂ h2 hs1 hs2
    have hpath : ref.Path = "app" := by
      have hres : uniqueGraph.allResources = [resS, resN1] := rfl
      rw [hres] at hr
      rcases List.mem_cons.1 hr with rfl | hr
      · have hext : ExtractReferences resS "/repo" =
            [⟨"flux-source", "app", "/repo/sync.yaml", 1, ReferenceTypeSourceRef, "app",
              false⟩] := rfl
        rw [hext, List.mem_singleton] at href
        rw [href]
      · rcases List.mem_cons.1 hr with rfl | hr
        · have hext : ExtractReferences resN1 "/repo" = [] := rfl
          rw [hext] at href
          simp at href
        · simp at hr
    rw [hmap] at h1 h2
    rw [hpath] at hs1 hs2
    rcases List.mem_cons.1 h1 with rfl | h1
    · exact absurd hs1 (by decide)
    · rcases List.mem_cons.1 h1 with rfl | h1
      · rcases List.mem_cons.1 h2 with rfl | h2
        · exact absurd hs2 (by decide)
        · rcases List.mem_cons.1 h2 with rfl | h2
          · rfl
          · simp at h2
      · simp at h1
  exact (graph_build_deterministic_under_unique_names uniqueGraph "/repo"
    uniqueGraph.allResources uniqueGraph.allResources.reverse
    (resourcesMap uniqueGraph) ((resourcesMap uniqueGraph).reverse)
    (List.reverse_perm uniqueGraph.allResources).symm
    (List.reverse_perm (resourcesMap uniqueGraph)).symm huniq).1

/-! ## Membership and counting lemmas for the traversal -/

theorem mapInsert_key_mem (m : List (String × ParsedResource)) (k : String)
    (v : ParsedResource) : k ∈ (mapInsert m k v).map Prod.fst := by
  induction m with
  | nil => exact List.mem_singleton.2 rfl
  | cons kv rest ih =>
    obtain ⟨k', v'⟩ := kv
    unfold mapInsert
    by_cases h : k' = k
    · rw [if_pos h]
      exact List.mem_cons_self _ _
    · rw [if_neg h, List.map_cons]
      exact List.mem_cons_of_mem _ ih

theorem mapInsert_key_preserved (m : List (String × ParsedResource)) (k : String)
    (v : ParsedResource) (k' : String) (h : k' ∈ m.map Prod.fst) :
    k' ∈ (mapInsert m k v).map Prod.fst := by
  induction m with
  | nil => simp at h
  | cons kv rest ih =>
    obtain ⟨k0, v0⟩ := kv
    unfold mapInsert
    rw [List.map_cons] at h
    by_cases hk : k0 = k
    · rw [if_pos hk, List.map_cons]
      rcases List.mem_cons.1 h with rfl | h
      · exact hk ▸ List.mem_cons_self _ _
      · exact List.mem_cons_of_mem _ h
    · rw [if_neg hk, List.map_cons]
      rcases List.mem_cons.1 h with rfl | h
      · exact List.mem_cons_self _ _
      · exact List.mem_cons_of_mem _ (ih h)

theorem foldl_mapInsert_key_preserved (l : List ParsedResource) :
    ∀ (m : List (String × ParsedResource)) (k : String), k ∈ m.map Prod.fst →
      k ∈ (l.foldl (fun m r => mapInsert m (GetResourceKey r) r) m).map Prod.fst := by
  induction l with
  | nil => intro m k h; exact h
  | cons r rest ih =>
    intro m k h
    rw [List.foldl_cons]
    exact ih _ k (mapInsert_key_preserved m (GetResourceKey r) r k h)

theorem key_mem_graphKeys {g : ResourceGraph} {r : ParsedResource}
    (h : r ∈ g.allResources) : GetResourceKey r ∈ graphKeys g := by
  unfold graphKeys resourcesMap
  have haux : ∀ (l : List ParsedResource) (m : List (String × ParsedResource)) (r : ParsedResource),
      r ∈ l →
      GetResourceKey r ∈ (l.foldl (fun m r => mapInsert m (GetResourceKey r) r) m).map Prod.fst := by
    intro l
    induction l with
    | nil => intro m r h; simp at h
    | cons x rest ih =>
      intro m r h
      rw [List.foldl_cons]
      rcases List.mem_cons.1 h with rfl | h
      · exact foldl_mapInsert_key_preserved rest _ _ (mapInsert_key_mem m (GetResourceKey r) r)
      · exact ih _ r h
  exact haux g.allResources [] r h

theorem mapInsert_mem (m : List (String × ParsedResource)) (k : String) (v : ParsedResource)
    (kv : String × ParsedResource) (h : kv ∈ mapInsert m k v) : kv ∈ m ∨ kv = (k, v) := by
  induction m with
  | nil => right; simpa [mapInsert] using h
  | cons kv0 rest ih =>
    obtain ⟨k0, v0⟩ := kv0
    unfold mapInsert at h
    by_cases hk : k0 = k
    · rw [if_pos hk] at h
      rcases List.mem_cons.1 h with rfl | h
      · right; rfl
      · left; exact List.mem_cons_of_mem _ h
    · rw [if_neg hk] at h
      rcases List.mem_cons.1 h with rfl | h
      · left; exact List.mem_cons_self _ _
      · rcases ih h with h | h
        · left; exact List.mem_cons_of_mem _ h
        · right; exact h

theorem resourcesMap_values {g : ResourceGraph} {kv : String × ParsedResource}
    (h : kv ∈ resourcesMap g) : kv.2 ∈ g.allResources := by
  unfold resourcesMap at h
  have haux : ∀ (l : List ParsedResource) (m : List (String × ParsedResource))
      (kv : String × ParsedResource),
      kv ∈ l.foldl (fun m r => mapInsert m (GetResourceKey r) r) m →
      kv ∈ m ∨ kv.2 ∈ l := by
    intro l
    induction l with
    | nil => intro m kv h; left; exact h
    | cons r rest ih =>
      intro m kv h
      rw [List.foldl_cons] at h
      rcases ih _ kv h with h | h
      · rcases mapInsert_mem m (GetResourceKey r) r kv h with h | h
        · left; exact h
        · right; rw [h]; exact List.mem_cons_self _ _
      · right; exact List.mem_cons_of_mem _ h
  rcases haux g.allResources [] kv h with h | h
  · simp at h
  · exact h

theorem mapLookup_mem (m : List (String × ParsedResource)) (k : String) (v : ParsedResource)
    (h : mapLookup m k = some v) : (k, v) ∈ m := by
  induction m with
  | nil => simp [mapLookup] at h
  | cons kv rest ih =>
    obtain ⟨k0, v0⟩ := kv
    unfold mapLookup at h
    by_cases hk : k0 = k
    · rw [if_pos hk] at h
      cases h
      rw [hk]
      exact List.mem_cons_self _ _
    · rw [if_neg hk] at h
      exact List.mem_cons_of_mem _ (ih h)

theorem head?_mem {α : Type} {l : List α} {a : α} (h : l.head? = some a) : a ∈ l := by
  cases l with
  | nil => cases h
  | cons x rest =>
    cases h
    exact List.mem_cons_self _ _

theorem findResourceByPath_mem {g : ResourceGraph} {path : String} {isRelative : Bool}
    {sourceFile repoPath : String} {t : ParsedResource}
    (h : findResourceByPath g path isRelative sourceFile repoPath = some t) :
    t ∈ g.allResources := by
  unfold findResourceByPath at h
  dsimp only at h
  split at h
  · exact List.mem_of_mem_filter (head?_mem h)
  · split at h
    · exact List.mem_of_mem_filter (head?_mem h)
    · cases h

theorem findResourceByName_mem {g : ResourceGraph} {ord : List (String × ParsedResource)}
    {name : String} {t : ParsedResource}
    (hord : ∀ kv ∈ ord, kv.2 ∈ g.allResources)
    (h : findResourceByName g ord name = some t) : t ∈ g.allResources := by
  unfold findResourceByName at h
  split at h
  · rename_i r hlook
    cases h
    exact resourcesMap_values (mapLookup_mem _ _ _ hlook)
  · split at h
    · rename_i kv hfind
      cases h
      exact hord kv (List.mem_of_find?_eq_some hfind)
    · cases h

theorem FindTargetResource_mem {g : ResourceGraph} {ord : List (String × ParsedResource)}
    {ref : ResourceReference} {r : ParsedResource} {repoPath : String} {t : ParsedResource}
    (hord : ∀ kv ∈ ord, kv.2 ∈ g.allResources)
    (h : FindTargetResource g ord ref r repoPath = some t) : t ∈ g.allResources := by
  unfold FindTargetResource at h
  split at h
  · exact findResourceByPath_mem h
  · split at h
    · exact findResourceByName_mem hord h
    · split at h
      · cases h
      · cases h

theorem traverseDepStep_subset (step : ParsedResource → List String → List String)
    (g : ResourceGraph) (ord : List (String × ParsedResource)) (repoPath : String)
    (r : ParsedResource) (dep : ResourceReference) (visited : List String)
    (hstep : ∀ t vis, vis ⊆ step t vis) :
    visited ⊆ traverseDepStep step g ord repoPath r dep visited := by
  unfold traverseDepStep
  split
  · split
    · exact hstep _ _
    · exact fun _ h => h
  · exact fun _ h => h

theorem traverseDeps_subset (step : ParsedResource → List String → List String)
    (g : ResourceGraph) (ord : List (String × ParsedResource)) (repoPath : String)
    (r : ParsedResource) (hstep : ∀ t vis, vis ⊆ step t vis) :
    ∀ (deps : List ResourceReference) (visited : List String),
      visited ⊆ traverseDeps step g ord repoPath r deps visited := by
  intro deps
  induction deps with
  | nil => intro visited; exact fun _ h => h
  | cons dep rest ih =>
    intro visited
    exact fun {a} ha =>
      ih (traverseDepStep step g ord repoPath r dep visited)
        (traverseDepStep_subset step g ord repoPath r dep visited hstep ha)

theorem traverseFuel_subset (g : ResourceGraph) (ord : List (String × ParsedResource))
    (repoPath : String) :
    ∀ (fuel : Nat) (r : ParsedResource) (visited : List String),
      visited ⊆ traverseFuel g ord repoPath fuel r visited := by
  intro fuel
  induction fuel with
  | zero => intro r visited; exact fun _ h => h
  | succ fuel ih =>
    intro r visited
    unfold traverseFuel
    split
    · exact fun _ h => h
    · exact fun {a} ha =>
        traverseDeps_subset (traverseFuel g ord repoPath fuel) g ord repoPath r
          (fun t vis => ih t vis) r.Dependencies (GetResourceKey r :: visited)
          (List.mem_cons_of_mem _ ha)

theorem contains_mem {l : List String} {a : String} : l.contains a = true ↔ a ∈ l :=
  List.elem_iff

theorem filter_length_mono (l : List String) (p q : String → Bool)
    (h : ∀ x, q x = true → p x = true) : (l.filter q).length ≤ (l.filter p).length := by
  induction l with
  | nil => exact Nat.le_refl 0
  | cons a rest ih =>
    rw [List.filter_cons, List.filter_cons]
    cases hq : q a with
    | true =>
      rw [h a hq]
      simpa using ih
    | false =>
      cases hp : p a with
      | true => simpa using Nat.le_succ_of_le ih
      | false => simpa using ih

theorem filter_length_strict (l : List String) (p q : String → Bool)
    (h : ∀ x, q x = true → p x = true) :
    ∀ x ∈ l, p x = true → q x = false → (l.filter q).length < (l.filter p).length := by
  induction l with
  | nil => intro x hx; simp at hx
  | cons a rest ih =>
    intro x hx hp hq
    rw [List.filter_cons, List.filter_cons]
    cases hqa : q a with
    | true =>
      rw [h a hqa]
      rcases List.mem_cons.1 hx with rfl | hx
      · rw [hqa] at hq; cases hq
      · simpa using ih x hx hp hq
    | false =>
      cases hpa : p a with
      | true =>
        simpa using Nat.lt_succ_of_le (filter_length_mono rest p q h)
      | false =>
        rcases List.mem_cons.1 hx with rfl | hx
        · rw [hpa] at hp; cases hp
        · simpa using ih x hx hp hq

theorem unvisited_le_of_subset {g : ResourceGraph} {vis vis' : List String}
    (h : vis ⊆ vis') : unvisitedCount g vis' ≤ unvisitedCount g vis := by
  unfold unvisitedCount
  apply filter_length_mono
  intro x hx
  rw [Bool.not_eq_true'] at hx ⊢
  cases hv : vis.contains x with
  | false => rfl
  | true =>
    have hmem : x ∈ vis' := h (contains_mem.1 hv)
    rw [contains_mem.2 hmem] at hx
    cases hx

theorem unvisited_strict {g : ResourceGraph} {r : ParsedResource} {vis : List String}
    (hkey : GetResourceKey r ∈ graphKeys g)
    (hvis : vis.contains (GetResourceKey r) = false) :
    unvisitedCount g (GetResourceKey r :: vis) < unvisitedCount g vis := by
  unfold unvisitedCount
  refine filter_length_strict _ _ _ ?hmono (GetResourceKey r) hkey ?hp ?hq
  case hmono =>
    intro x hx
    rw [Bool.not_eq_true'] at hx ⊢
    cases hv : vis.contains x with
    | false => rfl
    | true =>
      have hmem : x ∈ GetResourceKey r :: vis :=
        List.mem_cons_of_mem _ (contains_mem.1 hv)
      rw [contains_mem.2 hmem] at hx
      cases hx
  case hp => rw [hvis]; rfl
  case hq =>
    rw [Bool.not_eq_false']
    exact contains_mem.2 (List.mem_cons_self _ _)

theorem traverseDeps_stable (g : ResourceGraph) (ord : List (String × ParsedResource))
    (repoPath : String) (hord : ∀ kv ∈ ord, kv.2 ∈ g.allResources)
    (B fuel₁ fuel₂ : Nat)
    (hstable : ∀ r vis, unvisitedCount g vis ≤ B → unvisitedCount g vis < fuel₁ →
      unvisitedCount g vis < fuel₂ →
      (GetResourceKey r ∈ graphKeys g ∨ vis.contains (GetResourceKey r) = true) →
      traverseFuel g ord repoPath fuel₁ r vis = traverseFuel g ord repoPath fuel₂ r vis) :
    ∀ (deps : List ResourceReference) (r : ParsedResource) (vis : List String),
      unvisitedCount g vis ≤ B → unvisitedCount g vis < fuel₁ →
      unvisitedCount g vis < fuel₂ →
      traverseDeps (traverseFuel g ord repoPath fuel₁) g ord repoPath r deps vis =
        traverseDeps (traverseFuel g ord repoPath fuel₂) g ord repoPath r deps vis := by
  intro deps
  induction deps with
  | nil => intro r vis _ _ _; rfl
  | cons dep rest ih =>
    intro r vis hB h1 h2
    have hdep : traverseDepStep (traverseFuel g ord repoPath fuel₁) g ord repoPath r dep vis =
        traverseDepStep (traverseFuel g ord repoPath fuel₂) g ord repoPath r dep vis := by
      unfold traverseDepStep
      split
      · cases htarget : FindTargetResource g ord dep r repoPath with
        | none => rfl
        | some t =>
          exact hstable t vis hB h1 h2
            (Or.inl (key_mem_graphKeys (FindTargetResource_mem hord htarget)))
      · rfl
    have hunfold₁ : traverseDeps (traverseFuel g ord repoPath fuel₁) g ord repoPath r
        (dep :: rest) vis =
        traverseDeps (traverseFuel g ord repoPath fuel₁) g ord repoPath r rest
          (traverseDepStep (traverseFuel g ord repoPath fuel₁) g ord repoPath r dep vis) := rfl
    have hunfold₂ : traverseDeps (traverseFuel g ord repoPath fuel₂) g ord repoPath r
        (dep :: rest) vis =
        traverseDeps (traverseFuel g ord repoPath fuel₂) g ord repoPath r rest
          (traverseDepStep (traverseFuel g ord repoPath fuel₂) g ord repoPath r dep vis) := rfl
    rw [hunfold₁, hunfold₂, hdep]
    have hsub : vis ⊆ traverseDepStep (traverseFuel g ord repoPath fuel₂) g ord repoPath r
        dep vis :=
      traverseDepStep_subset _ g ord repoPath r dep vis
        (fun t v => traverseFuel_subset g ord repoPath fuel₂ t v)
    have hle := unvisited_le_of_subset (g := g) hsub
    exact ih r _ (Nat.le_trans hle hB) (Nat.lt_of_le_of_lt hle h1) (Nat.lt_of_le_of_lt hle h2)

theorem traverseFuel_stable (g : ResourceGraph) (ord : List (String × ParsedResource))
    (repoPath : String) (hord : ∀ kv ∈ ord, kv.2 ∈ g.allResources) :
    ∀ (n fuel₁ fuel₂ : Nat) (r : ParsedResource) (vis : List String),
      unvisitedCount g vis ≤ n → unvisitedCount g vis < fuel₁ →
      unvisitedCount g vis < fuel₂ →
      (GetResourceKey r ∈ graphKeys g ∨ vis.contains (GetResourceKey r) = true) →
      traverseFuel g ord repoPath fuel₁ r vis = traverseFuel g ord repoPath fuel₂ r vis := by
  intro n
  induction n using Nat.strong_induction_on with
  | _ n IH =>
    intro fuel₁ fuel₂ r vis hn h1 h2 hr
    obtain ⟨f₁, rfl⟩ : ∃ f, fuel₁ = f + 1 := ⟨fuel₁ - 1, by omega⟩
    obtain ⟨f₂, rfl⟩ : ∃ f, fuel₂ = f + 1 := ⟨fuel₂ - 1, by omega⟩
    simp only [traverseFuel]
    by_cases hvis : vis.contains (GetResourceKey r) = true
    · rw [if_pos hvis, if_pos hvis]
    · rw [if_neg hvis, if_neg hvis]
      have hkey : GetResourceKey r ∈ graphKeys g := by
        rcases hr with hk | hk
        · exact hk
        · exact absurd hk hvis
      have hvisf : vis.contains (GetResourceKey r) = false := by
        cases h : vis.contains (GetResourceKey r) with
        | false => rfl
        | true => exact absurd h hvis
      have hlt := unvisited_strict hkey hvisf
      refine traverseDeps_stable g ord repoPath hord
        (unvisitedCount g (GetResourceKey r :: vis)) f₁ f₂ ?hstable r.Dependencies r
        (GetResourceKey r :: vis) (Nat.le_refl _) (by omega) (by omega)
      case hstable =>
        intro r' vis' hB h1' h2' hr'
        exact IH (unvisitedCount g (GetResourceKey r :: vis)) (by omega) f₁ f₂ r' vis'
          hB h1' h2' hr'

theorem mapInsert_length (m : List (String × ParsedResource)) (k : String)
    (v : ParsedResource) : (mapInsert m k v).length ≤ m.length + 1 := by
  induction m with
  | nil => exact Nat.le_refl 1
  | cons kv rest ih =>
    obtain ⟨k0, v0⟩ := kv
    unfold mapInsert
    by_cases hk : k0 = k
    · rw [if_pos hk]
      simp
    · rw [if_neg hk]
      simpa using ih

theorem resourcesMap_length_le (g : ResourceGraph) :
    (resourcesMap g).length ≤ g.allResources.length := by
  unfold resourcesMap
  have haux : ∀ (l : List ParsedResource) (m : List (String × ParsedResource)),
      (l.foldl (fun m r => mapInsert m (GetResourceKey r) r) m).length ≤
        m.length + l.length := by
    intro l
    induction l with
    | nil => intro m; simp
    | cons r rest ih =>
      intro m
      rw [List.foldl_cons]
      calc (rest.foldl (fun m r => mapInsert m (GetResourceKey r) r)
              (mapInsert m (GetResourceKey r) r)).length ≤
            (mapInsert m (GetResourceKey r) r).length + rest.length := ih _
        _ ≤ m.length + 1 + rest.length :=
            Nat.add_le_add_right (mapInsert_length m (GetResourceKey r) r) _
        _ = m.length + (r :: rest).length := by simp; omega
  simpa using haux g.allResources []

theorem unvisited_le_resources (g : ResourceGraph) (visited : List String) :
    unvisitedCount g visited ≤ g.allResources.length := by
  unfold unvisitedCount
  calc ((graphKeys g).filter (fun k => !visited.contains k)).length ≤
        (graphKeys g).length := List.length_filter_le _ _
    _ = (resourcesMap g).length := by unfold graphKeys; rw [List.length_map]
    _ ≤ g.allResources.length := resourcesMap_length_le g

/-- C3: the depth-first orphan traversal never re-enters a visited
resource, and it terminates on every graph, cyclic ones included: the
fuel-indexed unfolding of the Go recursion is stationary once the fuel
exceeds the number of unvisited graph keys, the wrapper's default fuel
always suffices, and on the concrete cyclic graph A→B→A the analysis
returns the correct (empty) complement for the entry-point set {A}. -/
theorem traversal_cycle_safe :
    (∀ (g : ResourceGraph) (ord : List (String × ParsedResource)) (repoPath : String)
      (fuel : Nat) (r : ParsedResource) (visited : List String),
      visited.contains (GetResourceKey r) = true →
      traverseFuel g ord repoPath (fuel + 1) r visited = visited) ∧
    (∀ (g : ResourceGraph) (ord : List (String × ParsedResource)) (repoPath : String)
      (r : ParsedResource) (visited : List String) (fuel₁ fuel₂ : Nat),
      (∀ kv ∈ ord, kv.2 ∈ g.allResources) →
      (GetResourceKey r ∈ graphKeys g ∨ visited.contains (GetResourceKey r) = true) →
      unvisitedCount g visited < fuel₁ → unvisitedCount g visited < fuel₂ →
      traverseFuel g ord repoPath fuel₁ r visited =
        traverseFuel g ord repoPath fuel₂ r visited) ∧
    (∀ (g : ResourceGraph) (ord : List (String × ParsedResource)) (repoPath : String)
      (r : ParsedResource) (visited : List String) (fuel : Nat),
      (∀ kv ∈ ord, kv.2 ∈ g.allResources) →
      (GetResourceKey r ∈ graphKeys g ∨ visited.contains (GetResourceKey r) = true) →
      unvisitedCount g visited < fuel →
      traverseFromResource g ord repoPath r visited =
        traverseFuel g ord repoPath fuel r visited) ∧
    ((FindOrphanedResources cycleGraph (resourcesMap cycleGraph) (resourcesMap cycleGraph)
      "/repo" (cycleGraph.allResources.take 1)).map GetResourceKey = []) := by
  have hstable : ∀ (g : ResourceGraph) (ord : List (String × ParsedResource))
      (repoPath : String) (r : ParsedResource) (visited : List String) (fuel₁ fuel₂ : Nat),
      (∀ kv ∈ ord, kv.2 ∈ g.allResources) →
      (GetResourceKey r ∈ graphKeys g ∨ visited.contains (GetResourceKey r) = true) →
      unvisitedCount g visited < fuel₁ → unvisitedCount g visited < fuel₂ →
      traverseFuel g ord repoPath fuel₁ r visited =
        traverseFuel g ord repoPath fuel₂ r visited := by
    intro g ord repoPath r visited fuel₁ fuel₂ hord hr h1 h2
    exact traverseFuel_stable g ord repoPath hord (unvisitedCount g visited) fuel₁ fuel₂
      r visited (Nat.le_refl _) h1 h2 hr
  refine ⟨?_, hstable, ?_, by decide⟩
  · intro g ord repoPath fuel r visited h
    simp only [traverseFuel]
    rw [if_pos h]
  · intro g ord repoPath r visited fuel hord hr hfuel
    unfold traverseFromResource
    exact hstable g ord repoPath r visited _ fuel hord hr
      (Nat.lt_succ_of_le (unvisited_le_resources g visited)) hfuel

/-- C3 witness: never re-entering and stationarity at concrete inputs on
the cyclic graph. -/
theorem traversal_cycle_safe_witness :
    traverseFuel cycleGraph (resourcesMap cycleGraph) "/repo" 5 resA ["a"] = ["a"] ∧
    traverseFuel cycleGraph (resourcesMap cycleGraph) "/repo" 7 resA [] =
      traverseFuel cycleGraph (resourcesMap cycleGraph) "/repo" 9 resA [] := by
  constructor
  · exact traversal_cycle_safe.1 cycleGraph (resourcesMap cycleGraph) "/repo" 4 resA ["a"]
      (by decide)
  · exact traversal_cycle_safe.2.1 cycleGraph (resourcesMap cycleGraph) "/repo" resA [] 7 9
      (fun kv hkv => resourcesMap_values hkv) (Or.inl (by decide)) (by decide) (by decide)

end GitopsValidator
